import Mathlib

/-!
Shallow embedding of the termflowy document tree (`src/tree.rs`) and the
raster browser (`src/raster.rs`), together with proofs of the specified
properties.

Modelling conventions:
* `Rc<RefCell<Node>>` graphs are modelled as pure values: an `RNode` holds the
  id, the text content and the ordered child list; the parent back-reference is
  implicit (it is recovered by searching for the unique node whose child list
  contains a given id, which coincides with the Rust parent pointer in every
  state satisfying the documented invariants).
* The injected `IdGenerator` is modelled with the semantics of the repository's
  only concrete generator (`TestGen`): a counter that returns its current value
  and increments.  The counter is threaded through the `Tree` state as `nextId`.
* Fallible operations return `Res`, whose `abort` constructor models a Rust
  process abort (`unwrap`/`expect`/`todo!`/`panic!`) as opposed to a typed
  `Result::Err` (the `err` constructor).
* `i32` identities and coordinates are modelled as `Int`; none of the verified
  operations perform wrapping arithmetic.
-/

namespace Termflowy

/-- Outcome of a Rust call: a value, a typed error, or a process abort. -/
inductive Res (α : Type) where
  | ok : α → Res α
  | err : String → Res α
  | abort : String → Res α
deriving Repr

/-- `Dir` from `tree.rs`. -/
inductive Dir where
  | Above
  | Below
deriving Repr, DecidableEq

/-- A document-tree node (`Node` in `tree.rs`): id, text content, ordered children. -/
inductive RNode : Type where
  | mk : Int → String → List RNode → RNode
deriving Repr

def RNode.id : RNode → Int
  | .mk i _ _ => i

def RNode.content : RNode → String
  | .mk _ c _ => c

def RNode.children : RNode → List RNode
  | .mk _ _ ch => ch

mutual
/-- Ids of a node and all descendants in post-order (children before the node),
the order used by `NodeIterator::traverse(TraversalType::PostOrder)`. -/
def postIds : RNode → List Int
  | .mk i _ ch => postIdsL ch ++ [i]
def postIdsL : List RNode → List Int
  | [] => []
  | c :: cs => postIds c ++ postIdsL cs
end

mutual
/-- Number of nodes in a subtree. -/
def sizeN : RNode → Nat
  | .mk _ _ ch => sizeNL ch + 1
def sizeNL : List RNode → Nat
  | [] => 0
  | c :: cs => sizeN c + sizeNL cs
end

mutual
/-- All nodes of a subtree (the node itself and every descendant). -/
def allNodes : RNode → List RNode
  | .mk i c ch => .mk i c ch :: allNodesL ch
def allNodesL : List RNode → List RNode
  | [] => []
  | c :: cs => allNodes c ++ allNodesL cs
end

/-- Id-free skeleton of a node: content and tree shape only. -/
inductive CTree : Type where
  | mk : String → List CTree → CTree
deriving Repr

mutual
/-- Erase ids, keeping shape and per-node content. -/
def shapeOf : RNode → CTree
  | .mk _ c ch => .mk c (shapeOfL ch)
def shapeOfL : List RNode → List CTree
  | [] => []
  | c :: cs => shapeOf c :: shapeOfL cs
end

mutual
/-- `Subtree::make_unique`: walk the subtree in post-order and give every node a
fresh id from the generator (modelled as a counter), returning the remapped
subtree and the advanced counter. -/
def makeUnique : RNode → Int → RNode × Int
  | .mk _ c ch, g =>
    let r := makeUniqueL ch g
    (.mk r.2 c r.1, r.2 + 1)
def makeUniqueL : List RNode → Int → List RNode × Int
  | [], g => ([], g)
  | c :: cs, g =>
    let r := makeUnique c g
    let r2 := makeUniqueL cs r.2
    (r.1 :: r2.1, r2.2)
end

/-- Index of the first child whose id is `i` (`iter().position(...)` on a child
list in `tree.rs`). -/
def idxOf (i : Int) : List RNode → Option Nat
  | [] => none
  | c :: cs => if c.id = i then some 0 else (idxOf i cs).map (· + 1)

/-- `Vec::insert(k, a)`.  Every call site below has `k ≤ length`; for larger
`k` (where Rust would abort) the element is appended. -/
def insertAt (k : Nat) (a : α) (l : List α) : List α :=
  match k, l with
  | 0, l => a :: l
  | _ + 1, [] => [a]
  | k + 1, c :: cs => c :: insertAt k a cs

/-- `Node::insert_child_relative`: insert `child` just above/below the first
child whose id is `relId`.  The `none` branch (Rust returns `Err(())`, which
every caller turns into an abort) is unreachable at all call sites because the
enclosing search guarantees a child with id `relId` exists. -/
def insertRelChildren (relId : Int) (dir : Dir) (child : RNode) (ch : List RNode) : List RNode :=
  match idxOf relId ch, dir with
  | some k, .Below => insertAt (k + 1) child ch
  | some k, .Above => insertAt k child ch
  | none, _ => ch

mutual
/-- Rewrite-at-parent: find the first node (in pre-order) whose child list
contains a child with id `i` — i.e. the parent of `i`, reached in Rust through
the parent back-pointer — and replace that node's child list by `f` applied to
it.  Returns the (old) parent together with the rewritten tree, or `none` when
no node has a child with id `i`. -/
def rap (i : Int) (f : List RNode → List RNode) : RNode → Option (RNode × RNode)
  | .mk nid nc ch =>
    if ch.any (fun c => c.id == i) then some (.mk nid nc ch, .mk nid nc (f ch))
    else
      match rapL i f ch with
      | some (p, ch2) => some (p, .mk nid nc ch2)
      | none => none
def rapL (i : Int) (f : List RNode → List RNode) : List RNode → Option (RNode × List RNode)
  | [] => none
  | c :: cs =>
    match rap i f c with
    | some (p, c2) => some (p, c2 :: cs)
    | none =>
      match rapL i f cs with
      | some (p, cs2) => some (p, c :: cs2)
      | none => none
end

/-- Parent of the node with id `i` (the Rust `parent` back-pointer, recovered
structurally). -/
def findParent (r : RNode) (i : Int) : Option RNode :=
  (rap i (fun ch => ch) r).map (fun pr => pr.1)

/-- `HashMap::insert` on the id table, viewed as its key set. -/
def tblInsert (i : Int) (tbl : List Int) : List Int :=
  if tbl.contains i then tbl else i :: tbl

/-- The `Tree` state from `tree.rs`: root node, id of the active node, the
id-generator counter, and the key set of `id_table`. -/
structure Tree where
  root : RNode
  activeId : Int
  nextId : Int
  idTable : List Int
deriving Repr

/-- `Subtree` from `tree.rs` (per the spec the detached copy records the former
parent's id and, if present, the former above-sibling's id). -/
structure Subtree where
  root : RNode
  parentId : Int
  aboveSiblingId : Option Int
deriving Repr

/-- `Tree::new`: root (id 0) plus one first child whose id is the generator's
first output `g0`; both are registered in the id table; the child is active. -/
def Tree.new (g0 : Int) : Tree :=
  { root := RNode.mk 0 "" [RNode.mk g0 "" []]
    activeId := g0
    nextId := g0 + 1
    idTable := tblInsert g0 (tblInsert 0 []) }

/-- `Tree::insert_node`: link `node` above/below the active node in the active
node's parent and register its id.  Aborts (Rust `unwrap`) when the active node
has no parent. -/
def Tree.insert_node (t : Tree) (node : RNode) (dir : Dir) : Res Tree :=
  match rap t.activeId (insertRelChildren t.activeId dir node) t.root with
  | none => .abort "called unwrap on a None value"
  | some (_, root2) => .ok { t with root := root2, idTable := tblInsert node.id t.idTable }

/-- `Tree::create_sibling_above`.  Mirrors the source exactly: the new node is
inserted above the active node but the active node is NOT updated. -/
def Tree.create_sibling_above (t : Tree) : Res Tree :=
  Tree.insert_node { t with nextId := t.nextId + 1 } (RNode.mk t.nextId "" []) Dir.Above

/-- `Tree::create_sibling`: insert a fresh empty node below the active node and
make it active. -/
def Tree.create_sibling (t : Tree) : Res Tree :=
  match Tree.insert_node { t with nextId := t.nextId + 1 } (RNode.mk t.nextId "" []) Dir.Below with
  | .ok t2 => .ok { t2 with activeId := t.nextId }
  | r => r

/-- `Tree::activate`: switch the active node by id-table lookup. -/
def Tree.activate (t : Tree) (i : Int) : Res Tree :=
  if t.idTable.contains i then .ok { t with activeId := i }
  else .err "could not find id to activate"

/-- `Tree::indent`: reparent the active node under its above-sibling, as first
(`first = true`) or last child.  The rewrite applied at the parent: drop the
active node from the list and append/prepend it to the sibling's children. -/
def indentChildren (activeId : Int) (first : Bool) (ch : List RNode) : List RNode :=
  match idxOf activeId ch with
  | none => ch
  | some 0 => ch
  | some (k + 1) =>
    match ch.get? (k + 1), ch.get? k with
    | some a, some sib =>
      (ch.filter (fun l => l.id != activeId)).map
        (fun c =>
          if c.id == sib.id then
            RNode.mk c.id c.content (if first then a :: c.children else c.children ++ [a])
          else c)
    | _, _ => ch

def Tree.indent (t : Tree) (first : Bool) : Res Tree :=
  match rap t.activeId (indentChildren t.activeId first) t.root with
  | none => .err "already at max indentation level"
  | some (p, root2) =>
    match idxOf t.activeId p.children with
    | none => .abort "child not found in its own parent"
    | some 0 => .err "already at max indentation level"
    | some (_ + 1) => .ok { t with root := root2 }

/-- `Tree::unindent`: move the active node from its parent to the grandparent's
child list, immediately below the former parent.  Aborts when the active node
has no parent (Rust `unwrap`); errs when the parent is the root. -/
def Tree.unindent (t : Tree) : Res Tree :=
  match rap t.activeId (fun ch => ch) t.root with
  | none => .abort "called unwrap on a None value"
  | some (p, _) =>
    if p.id = 0 then .err "cannot unindent further"
    else
      match p.children.find? (fun c => c.id == t.activeId) with
      | none => .abort "child not found in its own parent"
      | some a =>
        match rap p.id (fun gch =>
            insertRelChildren p.id Dir.Below a
              (gch.map (fun c =>
                if c.id == p.id then
                  RNode.mk c.id c.content (c.children.filter (fun l => l.id != t.activeId))
                else c))) t.root with
        | none => .abort "called unwrap on a None value"
        | some (_, root2) => .ok { t with root := root2 }

/-- `Tree::delete`: unless the active node is the root's only child (typed
error), unlink the active node's subtree, pick the successor (below-sibling,
else above-sibling, else non-root parent), and remove every id of the unlinked
subtree from the id table (aborting, like the Rust `expect`, if an id is
missing from the table). -/
def Tree.delete (t : Tree) : Res Tree :=
  match rap t.activeId (List.filter (fun l => l.id != t.activeId)) t.root with
  | none => .abort "called unwrap on a None value"
  | some (p, root2) =>
    match idxOf t.activeId p.children with
    | none => .abort "child not found in its own parent"
    | some k =>
      match p.children.get? k with
      | none => .abort "child not found in its own parent"
      | some a =>
        if p.id = 0 ∧ p.children.length = 1 then .err "cannot delete last node"
        else
          let above := if k = 0 then none else p.children.get? (k - 1)
          let below := p.children.get? (k + 1)
          let newActive : Option Int :=
            match above, below with
            | none, none => if p.id ≠ 0 then some p.id else none
            | _, some b => some b.id
            | some ab, none => some ab.id
          match newActive with
          | none => .abort "explicit panic"
          | some na =>
            let ids := postIds a
            if ids.all (fun j => t.idTable.contains j) then
              .ok { root := root2, activeId := na, nextId := t.nextId,
                    idTable := t.idTable.filter (fun j => !(ids.contains j)) }
            else .abort "could not find node to remove"

/-- `Tree::get_subtree` as written in the source: `todo!()`, an unconditional
process abort. -/
def Tree.get_subtree (_ : Tree) : Res Subtree :=
  .abort "not yet implemented"

/-- Modelled from the spec: the implementation of `Tree::get_subtree` is
missing from the source (its body is `todo!()`; only its declaration, callers
and tests exist).  Per the spec it produces a detached copy of the active node
and its descendants, recording the former parent's id and, if present, the
former above-sibling's id, without mutating the source tree (the model is a
pure read of the tree state). -/
def Tree.get_subtree_model (t : Tree) : Option Subtree :=
  match rap t.activeId (fun ch => ch) t.root with
  | none => none
  | some (p, _) =>
    match p.children.find? (fun c => c.id == t.activeId), idxOf t.activeId p.children with
    | some a, some k =>
      some { root := a, parentId := p.id,
             aboveSiblingId := if k = 0 then none else (p.children.get? (k - 1)).map RNode.id }
    | _, _ => none

/-- `Tree::insert_subtree`: remap the subtree to fresh ids, splice its root next
to the active node (registering only the root's id), then activate the new
root's id. -/
def Tree.insert_subtree (t : Tree) (st : Subtree) (dir : Dir) : Res Tree :=
  let mu := makeUnique st.root t.nextId
  match Tree.insert_node { t with nextId := mu.2 } mu.1 dir with
  | .ok t2 =>
    match Tree.activate t2 mu.1.id with
    | .ok t3 => .ok t3
    | _ => .abort "could not find subtree root right after insertion"
  | .err e => .err e
  | .abort e => .abort e

/-- The four structural invariants from the doc comment on `struct Tree`
(`tree.rs` lines 21-26), instantiated to this embedding: a single active node
exists in the tree and is not the root; the root has at least one child; no two
nodes share an id (which also makes every non-root node a child of exactly one
parent, at one position). -/
def Invariants (t : Tree) : Prop :=
  t.activeId ∈ postIds t.root ∧ t.activeId ≠ t.root.id ∧
    t.root.children ≠ [] ∧ (postIds t.root).Nodup

/-- Well-formedness of a reachable tree state: the root is the sentinel id 0,
the invariants hold. -/
def WF (t : Tree) : Prop :=
  t.root.id = 0 ∧ Invariants t

/-- The id table registers exactly the ids present in the tree. -/
def Reg (t : Tree) : Prop :=
  ∀ j : Int, j ∈ t.idTable ↔ j ∈ postIds t.root

/-- Every id in the tree is below the generator counter (the generator is
fresh). -/
def Fresh (t : Tree) : Prop :=
  ∀ j ∈ postIds t.root, j < t.nextId

/-! ## The spatial grid (`src/raster.rs`) -/

/-- A screen position `(row, column)` (`Point` in `render.rs`). -/
abbrev Point := Int × Int

/-- `PixelState` from `raster.rs`. -/
inductive PixelState where
  | Empty
  | Filler (id : Int)
  | Text (id : Int) (offset : Nat)
  | Bullet (id : Int)
deriving Repr, DecidableEq

def PixelState.is_text : PixelState → Bool
  | .Text _ _ => true
  | _ => false

/-- `is_in_bounds` from `raster.rs`: `0 ≤ pos < max` componentwise. -/
def is_in_bounds (pos : Point) (max : Point) : Bool :=
  decide (0 ≤ pos.1 ∧ pos.1 < max.1 ∧ 0 ≤ pos.2 ∧ pos.2 < max.2)

/-- `add_points` from `raster.rs`. -/
def add_points (a b : Point) : Point := (a.1 + b.1, a.2 + b.2)

/-- `linear_move` from `raster.rs`: add a signed offset to the column, carry
into the row with euclidean division by the column width (`div_euclid` /
`rem_euclid`, i.e. `Int.ediv` / `Int.emod`), and fail when the resulting row
leaves `[0, rows)`.  (Rust `div_euclid`/`rem_euclid` abort on a zero divisor;
every property proved below assumes a positive column width, where `Int.ediv`
and `Int.emod` agree with them.)  This definition reads the arithmetic over
unbounded `Int`; `linear_move_i32` below makes the source's `i32` overflow
explicit, and the two agree whenever neither addition overflows — in
particular for the `±1` steps the browser scans take from in-bounds
positions. -/
def linear_move (pos : Point) (max : Point) (offset : Int) : Option Point :=
  let x := pos.2 + offset
  let r := pos.1 + x.ediv max.2
  let c := x.emod max.2
  if 0 ≤ r ∧ r < max.1 then some (r, c) else none

/-- Two's-complement wrap of an unbounded integer into the `i32` range
`[-2^31, 2^31)` — the release-profile result of an overflowing `i32`
addition.  (A debug build aborts at the same inputs; either way an
overflowing input never produces the unbounded-arithmetic result.) -/
def wrap32 (x : Int) : Int := (x + 2 ^ 31).emod (2 ^ 32) - 2 ^ 31

/-- `linear_move` with the source's `i32` additions made explicit: both the
column-plus-offset sum and the row-plus-carry sum wrap on overflow.  The
remaining operations cannot overflow under the positive column widths assumed
in every theorem: `rem_euclid` of an in-range value by a positive in-range
width is in range, and so is `div_euclid` (its only `i32` overflow,
`i32::MIN / -1`, needs a negative width, and Rust aborts there in every
profile). -/
def linear_move_i32 (pos : Point) (max : Point) (offset : Int) : Option Point :=
  let x := wrap32 (pos.2 + offset)
  let r := wrap32 (pos.1 + x.ediv max.2)
  let c := x.emod max.2
  if 0 ≤ r ∧ r < max.1 then some (r, c) else none

/-- A fully populated rectangular raster: per the render contract every cell
inside `max` holds a `PixelState`.  (`Raster` in `raster.rs` is a `Vec<Vec<_>>`
filled row-major by `push`; a fully pushed raster is exactly a total function
on the in-bounds cells.) -/
structure Raster where
  cell : Point → PixelState
  max : Point

/-- `Raster::get`: `Some` state for an in-bounds position, `None` otherwise. -/
def Raster.get (r : Raster) (pos : Point) : Option PixelState :=
  if is_in_bounds pos r.max then some (r.cell pos) else none

/-- `Direction` from `raster.rs`. -/
inductive Direction where
  | Left
  | Right
  | Up
  | Down
deriving Repr, DecidableEq

/-- The `linear_move` offset used by `go_while` for a horizontal direction. -/
def offDir : Direction → Int
  | .Left => -1
  | _ => 1

/-- The unit step of `go_no_wrap` for each direction. -/
def Direction.delta : Direction → Point
  | .Left => (0, -1)
  | .Right => (0, 1)
  | .Up => (-1, 0)
  | .Down => (1, 0)

/-- `Browser` from `raster.rs`: a cursor over a raster. -/
structure Browser where
  raster : Raster
  pos : Point

/-- `Raster::browser`: construction fails at an out-of-bounds position. -/
def Raster.browser (r : Raster) (pos : Point) : Res Browser :=
  if is_in_bounds pos r.max then .ok { raster := r, pos := pos }
  else .err "cannot get browser for pixel which is out of bounds"

/-- The loop body of `Browser::go_while`: step by `off` with `linear_move`,
stop with the new position at the first in-bounds cell whose state fails the
predicate, fail when `linear_move` runs off the grid.  The Rust loop is
unbounded; here it is bounded by fuel, and `stdFuel` is proved sufficient for
every in-bounds start with positive bounds, so the `abort` branch is
unreachable there. -/
def goWhileAux (ra : Raster) (off : Int) (pred : PixelState → Bool) :
    Nat → Point → Res Point
  | 0, _ => .abort "fuel exhausted"
  | fuel + 1, pos =>
    match linear_move pos ra.max off with
    | none => .err "could not browse past bounds"
    | some q =>
      match ra.get q with
      | some st => if pred st then goWhileAux ra off pred fuel q else .ok q
      | none => goWhileAux ra off pred fuel q

/-- Enough fuel to walk the whole grid once. -/
def stdFuel (max : Point) : Nat := (max.1 * max.2).toNat + 1

/-- `Browser::go_while`: only `Left`/`Right` are allowed; the cursor scans by
`linear_move` with offset `∓1`/`±1`. -/
def Browser.go_while (b : Browser) (dir : Direction) (pred : PixelState → Bool) :
    Res Browser :=
  match dir with
  | .Left =>
    match goWhileAux b.raster (-1) pred (stdFuel b.raster.max) b.pos with
    | .ok q => .ok { b with pos := q }
    | .err e => .err e
    | .abort e => .abort e
  | .Right =>
    match goWhileAux b.raster 1 pred (stdFuel b.raster.max) b.pos with
    | .ok q => .ok { b with pos := q }
    | .err e => .err e
    | .abort e => .abort e
  | _ => .err "go_while only defined for Left and Right directions"

/-- `Browser::go_no_wrap`: one step of plain coordinate addition, failing if
the result leaves the grid. -/
def Browser.go_no_wrap (b : Browser) (dir : Direction) : Res Browser :=
  let np := add_points b.pos dir.delta
  if is_in_bounds np b.raster.max then .ok { b with pos := np } else .err "hit bounds"

/-- `k` iterated `linear_move` steps by `off` (the flattened row-major walk);
used to state what cell a scan reaches. -/
def stepN (max : Point) (off : Int) : Nat → Point → Option Point
  | 0, pos => some pos
  | k + 1, pos => (linear_move pos max off).bind (stepN max off k)

/-- Flattened row-major index of a position. -/
def linIdx (max : Point) (pos : Point) : Int := pos.1 * max.2 + pos.2

/-- The list `[g, g+1, ..., g+k-1]` of `k` consecutive ids. -/
def intRange (g : Int) (k : Nat) : List Int := (List.range k).map (fun j => g + Int.ofNat j)

/-- `x` and `y` are the ids of adjacent children, in this order, of some node
of the tree. -/
def adjacentIds (r : RNode) (x y : Int) : Prop :=
  ∃ p ∈ allNodes r, ∃ k, (p.children.map RNode.id).get? k = some x ∧
    (p.children.map RNode.id).get? (k + 1) = some y

/-- Ids of a subtree as a multiset. -/
def msOf (n : RNode) : Multiset Int := (postIds n : Multiset Int)

/-- Ids of a forest as a multiset. -/
def msOfL (l : List RNode) : Multiset Int := (postIdsL l : Multiset Int)

/-! ## Infrastructure lemmas -/

@[simp] theorem RNode.id_mk (i : Int) (c : String) (ch : List RNode) :
    (RNode.mk i c ch).id = i := rfl

@[simp] theorem RNode.content_mk (i : Int) (c : String) (ch : List RNode) :
    (RNode.mk i c ch).content = c := rfl

@[simp] theorem RNode.children_mk (i : Int) (c : String) (ch : List RNode) :
    (RNode.mk i c ch).children = ch := rfl

mutual
/-- Simultaneous induction over nodes and forests. -/
theorem RNode.myrec (P : RNode → Prop) (Q : List RNode → Prop)
    (hnil : Q []) (hcons : ∀ n l, P n → Q l → Q (n :: l))
    (hmk : ∀ i c ch, Q ch → P (RNode.mk i c ch)) :
    ∀ n, P n
  | .mk i c ch => hmk i c ch (RNode.myrecL P Q hnil hcons hmk ch)
theorem RNode.myrecL (P : RNode → Prop) (Q : List RNode → Prop)
    (hnil : Q []) (hcons : ∀ n l, P n → Q l → Q (n :: l))
    (hmk : ∀ i c ch, Q ch → P (RNode.mk i c ch)) :
    ∀ l, Q l
  | [] => hnil
  | n :: l => hcons n l (RNode.myrec P Q hnil hcons hmk n) (RNode.myrecL P Q hnil hcons hmk l)
end

@[simp] theorem postIds_mk (i : Int) (c : String) (ch : List RNode) :
    postIds (.mk i c ch) = postIdsL ch ++ [i] := by
  rw [postIds]

@[simp] theorem postIdsL_nil : postIdsL [] = [] := by rw [postIdsL]

@[simp] theorem postIdsL_cons (c : RNode) (cs : List RNode) :
    postIdsL (c :: cs) = postIds c ++ postIdsL cs := by rw [postIdsL]

theorem postIdsL_append (l1 l2 : List RNode) :
    postIdsL (l1 ++ l2) = postIdsL l1 ++ postIdsL l2 := by
  induction l1 with
  | nil => simp
  | cons c cs ih => simp [ih]

theorem id_mem_postIds (n : RNode) : n.id ∈ postIds n := by
  cases n; simp

theorem mem_postIdsL_of_mem {c : RNode} {l : List RNode} (h : c ∈ l) {j : Int}
    (hj : j ∈ postIds c) : j ∈ postIdsL l := by
  induction l with
  | nil => cases h
  | cons d ds ih =>
    rcases List.mem_cons.mp h with h | h
    · subst h; simp [hj]
    · simp [ih h]

theorem mem_postIdsL {j : Int} {l : List RNode} :
    j ∈ postIdsL l ↔ ∃ c ∈ l, j ∈ postIds c := by
  induction l with
  | nil => simp
  | cons d ds ih =>
    simp only [postIdsL_cons, List.mem_append, ih, List.mem_cons]
    constructor
    · rintro (h | ⟨c, hc, hj⟩)
      · exact ⟨d, Or.inl rfl, h⟩
      · exact ⟨c, Or.inr hc, hj⟩
    · rintro ⟨c, (rfl | hc), hj⟩
      · exact Or.inl hj
      · exact Or.inr ⟨c, hc, hj⟩

theorem child_id_mem_postIdsL {c : RNode} {l : List RNode} (h : c ∈ l) :
    c.id ∈ postIdsL l := mem_postIdsL_of_mem h (id_mem_postIds c)

@[simp] theorem sizeN_mk (i : Int) (c : String) (ch : List RNode) :
    sizeN (.mk i c ch) = sizeNL ch + 1 := by rw [sizeN]

@[simp] theorem sizeNL_nil : sizeNL [] = 0 := by rw [sizeNL]

@[simp] theorem sizeNL_cons (c : RNode) (cs : List RNode) :
    sizeNL (c :: cs) = sizeN c + sizeNL cs := by rw [sizeNL]

theorem postIds_length (n : RNode) : (postIds n).length = sizeN n := by
  refine RNode.myrec (fun n => (postIds n).length = sizeN n)
    (fun l => (postIdsL l).length = sizeNL l) (by simp) ?_ ?_ n
  · intro c cs hc hcs; simp [hc, hcs]
  · intro i c ch hch; simp [hch]

theorem sizeN_pos (n : RNode) : 0 < sizeN n := by
  cases n; simp

@[simp] theorem allNodes_mk (i : Int) (c : String) (ch : List RNode) :
    allNodes (.mk i c ch) = .mk i c ch :: allNodesL ch := by rw [allNodes]

@[simp] theorem allNodesL_nil : allNodesL [] = [] := by rw [allNodesL]

@[simp] theorem allNodesL_cons (c : RNode) (cs : List RNode) :
    allNodesL (c :: cs) = allNodes c ++ allNodesL cs := by rw [allNodesL]

theorem self_mem_allNodes (n : RNode) : n ∈ allNodes n := by
  cases n; simp

theorem mem_allNodesL_of_mem {c : RNode} {l : List RNode} (h : c ∈ l) {m : RNode}
    (hm : m ∈ allNodes c) : m ∈ allNodesL l := by
  induction l with
  | nil => cases h
  | cons d ds ih =>
    rcases List.mem_cons.mp h with h | h
    · subst h; simp [hm]
    · simp [ih h]

/-- Each node of the tree contributes its subtree's ids to the whole. -/
theorem msOf_le_of_mem_allNodes {n p : RNode} (h : p ∈ allNodes n) :
    msOf p ≤ msOf n := by
  refine RNode.myrec (fun n => ∀ p, p ∈ allNodes n → msOf p ≤ msOf n)
    (fun l => ∀ p, p ∈ allNodesL l → msOf p ≤ msOfL l) ?_ ?_ ?_ n p h
  · intro p h; simp at h
  · intro c cs hc hcs p h
    simp only [allNodesL_cons, List.mem_append] at h
    have hsplit : msOfL (c :: cs) = msOf c + msOfL cs := by
      simp [msOfL, msOf, postIdsL_cons]
    rcases h with h | h
    · calc msOf p ≤ msOf c := hc p h
        _ ≤ msOfL (c :: cs) := by rw [hsplit]; exact le_add_right le_rfl
    · calc msOf p ≤ msOfL cs := hcs p h
        _ ≤ msOfL (c :: cs) := by rw [hsplit]; exact le_add_left le_rfl
  · intro i c ch hch p hp
    simp only [allNodes_mk, List.mem_cons] at hp
    have hsplit : msOf (.mk i c ch) = msOfL ch + {i} := by
      simp [msOf, msOfL, ← Multiset.coe_singleton, ← Multiset.coe_add]
    rcases hp with rfl | hp
    · exact le_rfl
    · calc msOf p ≤ msOfL ch := hch p hp
        _ ≤ msOf (.mk i c ch) := by rw [hsplit]; exact le_add_right le_rfl

theorem rap_eq (i : Int) (f : List RNode → List RNode) (nid : Int) (nc : String)
    (ch : List RNode) :
    rap i f (.mk nid nc ch) =
      if ch.any (fun c => c.id == i) then some (.mk nid nc ch, .mk nid nc (f ch))
      else
        match rapL i f ch with
        | some (p, ch2) => some (p, .mk nid nc ch2)
        | none => none := by
  rw [rap]

theorem rapL_eq_nil (i : Int) (f : List RNode → List RNode) : rapL i f [] = none := by
  rw [rapL]

theorem rapL_eq_cons (i : Int) (f : List RNode → List RNode) (c : RNode) (cs : List RNode) :
    rapL i f (c :: cs) =
      match rap i f c with
      | some (p, c2) => some (p, c2 :: cs)
      | none =>
        match rapL i f cs with
        | some (p, cs2) => some (p, c :: cs2)
        | none => none := by
  rw [rapL]

/-- The parent returned by `rap` does have a child with the searched id. -/
theorem rap_any {i : Int} {f : List RNode → List RNode} {n p n2 : RNode}
    (h : rap i f n = some (p, n2)) : p.children.any (fun c => c.id == i) = true := by
  refine RNode.myrec
    (fun n => ∀ p n2, rap i f n = some (p, n2) → p.children.any (fun c => c.id == i) = true)
    (fun l => ∀ p l2, rapL i f l = some (p, l2) → p.children.any (fun c => c.id == i) = true)
    ?_ ?_ ?_ n p n2 h
  · intro p l2 h; rw [rapL_eq_nil] at h; cases h
  · intro c cs hc hcs p l2 h
    rw [rapL_eq_cons] at h
    split at h
    · rename_i p2 c2 heq
      cases h
      exact hc _ _ heq
    · split at h
      · rename_i p2 cs2 heq
        cases h
        exact hcs _ _ heq
      · cases h
  · intro nid nc ch hch p n2 h
    rw [rap_eq] at h
    split at h
    · rename_i hany
      cases h
      simpa using hany
    · split at h
      · rename_i p2 ch2 heq
        cases h
        exact hch _ _ heq
      · cases h

/-- `rap` succeeds for every non-root id present in the tree. -/
theorem rap_isSome_of_mem {i : Int} {f : List RNode → List RNode} {n : RNode}
    (hmem : i ∈ postIds n) (hne : i ≠ n.id) : (rap i f n).isSome := by
  refine RNode.myrec
    (fun n => i ∈ postIds n → i ≠ n.id → (rap i f n).isSome)
    (fun l => i ∈ postIdsL l →
      (rapL i f l).isSome ∨ l.any (fun c => c.id == i) = true)
    ?_ ?_ ?_ n hmem hne
  · intro h; simp at h
  · intro c cs hc hcs h
    rw [postIdsL_cons, List.mem_append] at h
    rcases h with h | h
    · by_cases hid : i = c.id
      · right
        simp only [List.any_cons]
        have hbeq : (c.id == i) = true := by simp [hid]
        simp [hbeq]
      · have := hc h hid
        left
        rw [rapL_eq_cons]
        rcases Option.isSome_iff_exists.mp this with ⟨⟨p2, c2⟩, heq⟩
        simp [heq]
    · rcases hcs h with h2 | h2
      · left
        rw [rapL_eq_cons]
        rcases Option.isSome_iff_exists.mp h2 with ⟨⟨p2, cs2⟩, heq⟩
        cases hrc : rap i f c with
        | some pr => cases pr; simp [hrc]
        | none => simp [hrc, heq]
      · right
        simp only [List.any_cons]
        rw [h2]
        simp
  · intro nid nc ch hch hmem hne
    rw [postIds_mk, List.mem_append] at hmem
    rcases hmem with hmem | hmem
    · rcases hch hmem with h2 | h2
      · rw [rap_eq]
        split
        · simp
        · rcases Option.isSome_iff_exists.mp h2 with ⟨⟨p2, ch2⟩, heq⟩
          simp [heq]
      · rw [rap_eq, if_pos h2]; simp
    · simp only [List.mem_singleton] at hmem
      exact absurd (by simpa using hmem) hne

/-- The parent found by `rap` does not depend on the rewrite function. -/
theorem rap_fst_agnostic (i : Int) (f g : List RNode → List RNode) (n : RNode) :
    (rap i f n).map Prod.fst = (rap i g n).map Prod.fst := by
  refine RNode.myrec
    (fun n => (rap i f n).map Prod.fst = (rap i g n).map Prod.fst)
    (fun l => (rapL i f l).map Prod.fst = (rapL i g l).map Prod.fst)
    ?_ ?_ ?_ n
  · simp [rapL_eq_nil]
  · intro c cs hc hcs
    rw [rapL_eq_cons, rapL_eq_cons]
    cases hrcf : rap i f c with
    | some pr =>
      cases pr with
      | mk p c2 =>
        cases hrcg : rap i g c with
        | some pr2 =>
          cases pr2 with
          | mk p2 c3 =>
            have hps : some p = some p2 := by
              have hx := hc
              rw [hrcf, hrcg] at hx
              simpa using hx
            cases hps
            simp
        | none =>
          rw [hrcf, hrcg] at hc
          simp at hc
    | none =>
      cases hrcg : rap i g c with
      | some pr2 =>
        rw [hrcf, hrcg] at hc
        cases pr2
        simp at hc
      | none =>
        cases hrlf : rapL i f cs with
        | some pr =>
          cases pr with
          | mk p cs2 =>
            cases hrlg : rapL i g cs with
            | some pr2 =>
              cases pr2 with
              | mk p2 cs3 =>
                have hps : some p = some p2 := by
                  have hx := hcs
                  rw [hrlf, hrlg] at hx
                  simpa using hx
                cases hps
                simp
            | none =>
              rw [hrlf, hrlg] at hcs
              simp at hcs
        | none =>
          cases hrlg : rapL i g cs with
          | some pr2 =>
            rw [hrlf, hrlg] at hcs
            cases pr2
            simp at hcs
          | none => simp [hrlf, hrlg]
  · intro nid nc ch hch
    rw [rap_eq, rap_eq]
    split
    · simp
    · cases hrlf : rapL i f ch with
      | some pr =>
        cases pr with
        | mk p ch2 =>
          cases hrlg : rapL i g ch with
          | some pr2 =>
            cases pr2 with
            | mk p2 ch3 =>
              have hps : some p = some p2 := by
                have hx := hch
                rw [hrlf, hrlg] at hx
                simpa using hx
              cases hps
              simp
          | none =>
            rw [hrlf, hrlg] at hch
            simp at hch
      | none =>
        cases hrlg : rapL i g ch with
        | some pr2 =>
          rw [hrlf, hrlg] at hch
          cases pr2
          simp at hch
        | none => simp [hrlf, hrlg]

/-- The parent returned by `rap` is a node of the input tree. -/
theorem rap_old_mem {i : Int} {f : List RNode → List RNode} {n p n2 : RNode}
    (h : rap i f n = some (p, n2)) : p ∈ allNodes n := by
  refine RNode.myrec
    (fun n => ∀ p n2, rap i f n = some (p, n2) → p ∈ allNodes n)
    (fun l => ∀ p l2, rapL i f l = some (p, l2) → p ∈ allNodesL l)
    ?_ ?_ ?_ n p n2 h
  · intro p l2 h; rw [rapL_eq_nil] at h; cases h
  · intro c cs hc hcs p l2 h
    rw [rapL_eq_cons] at h
    split at h
    · rename_i p2 c2 heq
      cases h
      exact List.mem_append.mpr (Or.inl (hc _ _ heq))
    · split at h
      · rename_i p2 cs2 heq
        cases h
        exact List.mem_append.mpr (Or.inr (hcs _ _ heq))
      · cases h
  · intro nid nc ch hch p n2 h
    rw [rap_eq] at h
    split at h
    · cases h
      exact self_mem_allNodes _
    · split at h
      · rename_i p2 ch2 heq
        cases h
        exact List.mem_cons.mpr (Or.inr (hch _ _ heq))
      · cases h

/-- The rewritten parent is a node of the output tree. -/
theorem rap_new_mem {i : Int} {f : List RNode → List RNode} {n p n2 : RNode}
    (h : rap i f n = some (p, n2)) :
    RNode.mk p.id p.content (f p.children) ∈ allNodes n2 := by
  refine RNode.myrec
    (fun n => ∀ p n2, rap i f n = some (p, n2) →
      RNode.mk p.id p.content (f p.children) ∈ allNodes n2)
    (fun l => ∀ p l2, rapL i f l = some (p, l2) →
      RNode.mk p.id p.content (f p.children) ∈ allNodesL l2)
    ?_ ?_ ?_ n p n2 h
  · intro p l2 h; rw [rapL_eq_nil] at h; cases h
  · intro c cs hc hcs p l2 h
    rw [rapL_eq_cons] at h
    split at h
    · rename_i p2 c2 heq
      cases h
      exact List.mem_append.mpr (Or.inl (hc _ _ heq))
    · split at h
      · rename_i p2 cs2 heq
        cases h
        exact List.mem_append.mpr (Or.inr (hcs _ _ heq))
      · cases h
  · intro nid nc ch hch p n2 h
    rw [rap_eq] at h
    split at h
    · cases h
      exact List.mem_cons.mpr (Or.inl rfl)
    · split at h
      · rename_i p2 ch2 heq
        cases h
        exact List.mem_cons.mpr (Or.inr (hch _ _ heq))
      · cases h

theorem msOfL_cons (d : RNode) (ds : List RNode) : msOfL (d :: ds) = msOf d + msOfL ds := by
  simp [msOfL, msOf, ← Multiset.coe_add]

theorem msOf_node (j : Int) (s : String) (l : List RNode) :
    msOf (.mk j s l) = msOfL l + {j} := by
  simp [msOf, msOfL, ← Multiset.coe_singleton, ← Multiset.coe_add]

/-- Id accounting for `rap`: the output tree's ids are the input tree's ids
with the parent's old child-list ids replaced by the rewritten ones. -/
theorem rap_ms {i : Int} {f : List RNode → List RNode} {n p n2 : RNode}
    (h : rap i f n = some (p, n2)) :
    msOf n2 + msOfL p.children = msOf n + msOfL (f p.children) := by
  refine RNode.myrec
    (fun n => ∀ p n2, rap i f n = some (p, n2) →
      msOf n2 + msOfL p.children = msOf n + msOfL (f p.children))
    (fun l => ∀ p l2, rapL i f l = some (p, l2) →
      msOfL l2 + msOfL p.children = msOfL l + msOfL (f p.children))
    ?_ ?_ ?_ n p n2 h
  · intro p l2 h; rw [rapL_eq_nil] at h; cases h
  · intro c cs hc hcs p l2 h
    rw [rapL_eq_cons] at h
    split at h
    · rename_i p2 c2 heq
      cases h
      have hms := hc _ _ heq
      rw [msOfL_cons, msOfL_cons]
      calc msOf c2 + msOfL cs + msOfL p.children
          = (msOf c2 + msOfL p.children) + msOfL cs := by abel
        _ = (msOf c + msOfL (f p.children)) + msOfL cs := by rw [hms]
        _ = msOf c + msOfL cs + msOfL (f p.children) := by abel
    · split at h
      · rename_i p2 cs2 heq
        cases h
        have hms := hcs _ _ heq
        rw [msOfL_cons, msOfL_cons]
        calc msOf c + msOfL cs2 + msOfL p.children
            = msOf c + (msOfL cs2 + msOfL p.children) := by abel
          _ = msOf c + (msOfL cs + msOfL (f p.children)) := by rw [hms]
          _ = msOf c + msOfL cs + msOfL (f p.children) := by abel
      · cases h
  · intro nid nc ch hch p n2 h
    rw [rap_eq] at h
    split at h
    · cases h
      simp only [RNode.children_mk]
      rw [msOf_node, msOf_node]
      abel
    · split at h
      · rename_i p2 ch2 heq
        cases h
        have hms := hch _ _ heq
        rw [msOf_node, msOf_node]
        calc msOfL ch2 + {nid} + msOfL p.children
            = (msOfL ch2 + msOfL p.children) + {nid} := by abel
          _ = (msOfL ch + msOfL (f p.children)) + {nid} := by rw [hms]
          _ = msOfL ch + {nid} + msOfL (f p.children) := by abel
      · cases h

theorem RNode.eta (n : RNode) : RNode.mk n.id n.content n.children = n := by
  cases n
  rfl

theorem find?_append_left_none {p : RNode → Bool} {l1 l2 : List RNode}
    (h : ∀ x ∈ l1, p x = false) : (l1 ++ l2).find? p = l2.find? p := by
  induction l1 with
  | nil => simp
  | cons c cs ih =>
    have hc := h c (by simp)
    simp only [List.cons_append, List.find?_cons, hc]
    exact ih (fun x hx => h x (by simp [hx]))

/-! ## Claim theorems -/

/-- C4: the claim says no public `Tree` operation ever aborts the process, but
`Tree::get_subtree` is `todo!()`, which aborts unconditionally on every input
("not yet implemented"); this theorem evaluates the source's `get_subtree` on
an arbitrary tree. -/
theorem claim_C4_get_subtree_always_aborts (t : Tree) :
    Tree.get_subtree t = Res.abort "not yet implemented" := rfl

/-- C1: the claim fails on the source.  `Tree::new` registers the root (id 0)
in `id_table`, so the error-free call sequence `Tree::new; activate(0)` ends
with the root node active, violating structural invariant 1 (the active node is
never the root) stated both by the claim and by the doc comment on
`struct Tree`.  This theorem evaluates the embedding at that failing input. -/
theorem claim_C1_activate_zero_breaks_invariants :
    ∃ t, Tree.activate (Tree.new 1) 0 = Res.ok t ∧ t.activeId = t.root.id ∧
      ¬ Invariants t := by
  refine ⟨{ Tree.new 1 with activeId := 0 }, rfl, rfl, fun h => ?_⟩
  exact h.2.1 rfl

/-- C3: the claim fails on the source.  From the well-formed fresh tree,
`activate(0)` succeeds (id 0 is in the table) yet does not restore the
invariants — the root becomes active — and from the resulting state `unindent`
aborts on an `unwrap` of the root's missing parent instead of returning a typed
error.  This theorem evaluates the embedding at that failing input. -/
theorem claim_C3_activate_zero_not_invariant_restoring :
    ∃ t, Tree.activate (Tree.new 1) 0 = Res.ok t ∧ ¬ Invariants t ∧
      Tree.unindent t = Res.abort "called unwrap on a None value" := by
  refine ⟨{ Tree.new 1 with activeId := 0 }, rfl, fun h => h.2.1 rfl, rfl⟩

/-- C7: the claim fails on the source.  `Tree::create_sibling` activates the
new node, but `Tree::create_sibling_above` does not update `active` (its own
unit test `create_sibling_above_test` expects the activation).  On the fresh
tree, `create_sibling_above` creates node 2 above node 1, yet node 1 stays
active. -/
theorem claim_C7_create_sibling_above_keeps_old_active :
    ∃ t, Tree.create_sibling_above (Tree.new 1) = Res.ok t ∧
      t.root.children.map RNode.id = [2, 1] ∧ t.activeId = 1 ∧ t.activeId ≠ 2 := by
  exact ⟨_, rfl, rfl, rfl, by decide⟩

theorem wrap32_eq_of_range {x : Int} (h1 : -(2 ^ 31) ≤ x) (h2 : x < 2 ^ 31) :
    wrap32 x = x := by
  unfold wrap32
  have h3 : (x + 2 ^ 31).emod (2 ^ 32) = x + 2 ^ 31 :=
    Int.emod_eq_of_lt (by omega) (by omega)
  omega

/-- C10 counterexample: at the `i32`-valid input `pos = (0, 2^30 - 1)`,
`max = (2^30, 2^30)`, `offset = 2^31 - 1` — an in-bounds position with
positive column width — the unbounded euclidean carry lands in row
`2 ∈ [0, 2^30)`, so the claim, quantified over every signed offset, predicts
`Some`; but the source's `pos.1 + offset` addition overflows `i32`, wrapping
to row `-2`, and the program returns `None` (a debug build aborts at the same
input).  The idealized model disagrees with the overflow-faithful one here. -/
theorem claim_C10_linear_move_counterexample :
    is_in_bounds ((0 : Int), 2 ^ 30 - 1) ((2 ^ 30 : Int), (2 ^ 30 : Int)) = true ∧
    (0 : Int) < 2 ^ 30 ∧
    (0 ≤ (0 : Int) + ((2 ^ 30 - 1 : Int) + (2 ^ 31 - 1)).ediv (2 ^ 30) ∧
      (0 : Int) + ((2 ^ 30 - 1 : Int) + (2 ^ 31 - 1)).ediv (2 ^ 30) < 2 ^ 30) ∧
    linear_move_i32 (0, 2 ^ 30 - 1) (2 ^ 30, 2 ^ 30) (2 ^ 31 - 1) = none ∧
    linear_move (0, 2 ^ 30 - 1) (2 ^ 30, 2 ^ 30) (2 ^ 31 - 1) = some (2, 2 ^ 30 - 2) := by
  refine ⟨by decide, by decide, by decide, by decide, by decide⟩

/-- C10 as amended: for every in-bounds position, bounds with positive column
width, and signed offset such that neither `i32` addition of the source
overflows (the column-plus-offset sum and the row-plus-carry sum both lie in
`[-2^31, 2^31)`), `linear_move` agrees with its unbounded-arithmetic reading:
it adds the offset to the column, carries into the row with euclidean division
by the column width, keeps the euclidean remainder as the column (hence the
returned column is always in `[0, cols)`), and returns `some` exactly when the
resulting row lies in `[0, rows)`; in particular
`linear_move (1,1) (10,10) 11 = some (2,2)` and
`linear_move (1,1) (10,10) (-11) = some (0,0)`. -/
theorem claim_C10_linear_move_amended :
    (∀ (pos max : Point) (off : Int), is_in_bounds pos max = true → 0 < max.2 →
      -(2 ^ 31) ≤ pos.2 + off → pos.2 + off < 2 ^ 31 →
      -(2 ^ 31) ≤ pos.1 + (pos.2 + off).ediv max.2 →
      pos.1 + (pos.2 + off).ediv max.2 < 2 ^ 31 →
      linear_move_i32 pos max off = linear_move pos max off ∧
      (∀ q, linear_move_i32 pos max off = some q →
        q.1 = pos.1 + (pos.2 + off).ediv max.2 ∧ q.2 = (pos.2 + off).emod max.2 ∧
          0 ≤ q.2 ∧ q.2 < max.2 ∧ 0 ≤ q.1 ∧ q.1 < max.1) ∧
      ((∃ q, linear_move_i32 pos max off = some q) ↔
        (0 ≤ pos.1 + (pos.2 + off).ediv max.2 ∧
          pos.1 + (pos.2 + off).ediv max.2 < max.1))) ∧
    linear_move_i32 (1, 1) (10, 10) 11 = some (2, 2) ∧
    linear_move_i32 (1, 1) (10, 10) (-11) = some (0, 0) := by
  refine ⟨fun pos max off _hin hc h1 h2 h3 h4 => ?_, by decide, by decide⟩
  have hx : wrap32 (pos.2 + off) = pos.2 + off := wrap32_eq_of_range h1 h2
  have heq : linear_move_i32 pos max off = linear_move pos max off := by
    simp only [linear_move_i32, linear_move, hx]
    rw [wrap32_eq_of_range h3 h4]
  refine ⟨heq, fun q hq => ?_, ?_⟩
  · rw [heq] at hq
    simp only [linear_move] at hq
    split at hq
    · rename_i hr
      cases hq
      refine ⟨rfl, rfl, Int.emod_nonneg _ (by omega), Int.emod_lt_of_pos _ hc, hr.1, hr.2⟩
    · cases hq
  · rw [heq]
    constructor
    · rintro ⟨q, hq⟩
      simp only [linear_move] at hq
      split at hq
      · rename_i hr; exact hr
      · cases hq
    · intro hr
      exact ⟨_, by simp only [linear_move]; rw [if_pos hr]⟩

/-- Witness for C10: the amended theorem's universal part applied at the
spec's scenario grid, where no addition comes near the `i32` bounds. -/
theorem claim_C10_linear_move_amended_witness :
    (is_in_bounds ((1 : Int), (1 : Int)) ((10 : Int), (10 : Int)) = true ∧
      (0 : Int) < 10 ∧
      -(2 ^ 31) ≤ (1 : Int) + 11 ∧ (1 : Int) + 11 < 2 ^ 31 ∧
      -(2 ^ 31) ≤ (1 : Int) + ((1 : Int) + 11).ediv 10 ∧
      (1 : Int) + ((1 : Int) + 11).ediv 10 < 2 ^ 31) ∧
    (linear_move_i32 (1, 1) (10, 10) 11 = linear_move (1, 1) (10, 10) 11 ∧
      (∀ q, linear_move_i32 (1, 1) (10, 10) 11 = some q →
        q.1 = (1 : Int) + ((1 : Int) + 11).ediv 10 ∧
          q.2 = ((1 : Int) + 11).emod 10 ∧
          0 ≤ q.2 ∧ q.2 < 10 ∧ 0 ≤ q.1 ∧ q.1 < 10) ∧
      ((∃ q, linear_move_i32 (1, 1) (10, 10) 11 = some q) ↔
        (0 ≤ (1 : Int) + ((1 : Int) + 11).ediv 10 ∧
          (1 : Int) + ((1 : Int) + 11).ediv 10 < 10))) :=
  ⟨⟨by decide, by decide, by decide, by decide, by decide, by decide⟩,
    claim_C10_linear_move_amended.1 (1, 1) (10, 10) 11 (by decide) (by decide)
      (by decide) (by decide) (by decide) (by decide)⟩

/-- C8: from a tree whose root children are `[A, B]` with `B` active,
`indent(false)` makes `B` the last child of `A`, and `unindent()` then restores
exactly the pre-indent state: the same root child list `[A, B]`, `B` again a
child of the root, and the whole tree state (contents, active node, id table,
generator) bit-for-bit equal to the original. -/
theorem claim_C8_indent_unindent_inverse (t : Tree) (A B : RNode) (rc : String)
    (hroot : t.root = RNode.mk 0 rc [A, B]) (hact : t.activeId = B.id)
    (hnd : (postIds t.root).Nodup) :
    ∃ t1, Tree.indent t false = Res.ok t1 ∧
      t1.root = RNode.mk 0 rc [RNode.mk A.id A.content (A.children ++ [B])] ∧
      t1.activeId = B.id ∧ Tree.unindent t1 = Res.ok t := by
  obtain ⟨aI, aC, aCh⟩ := A
  obtain ⟨bI, bC, bCh⟩ := B
  obtain ⟨tr, ta, tn, ti⟩ := t
  simp only [RNode.id_mk, RNode.content_mk, RNode.children_mk] at *
  subst hroot
  rw [hact]
  simp only [postIds_mk, postIdsL_cons, postIdsL_nil, List.append_nil] at hnd
  have hnd1 : (postIds (.mk aI aC aCh) ++ postIds (.mk bI bC bCh)).Nodup :=
    (List.nodup_append.mp hnd).1
  have hdisj0 := (List.nodup_append.mp hnd).2.2
  have hA0 : aI ≠ 0 := by
    intro h
    refine hdisj0 ?_ (by simp [h] : (0:Int) ∈ [(0:Int)])
    have : aI ∈ postIds (RNode.mk aI aC aCh) := id_mem_postIds _
    simp only [postIds_mk] at this
    rw [← h] at *
    exact List.mem_append_left _ this
  have hdisjAB := (List.nodup_append.mp hnd1).2.2
  have hAB : aI ≠ bI := by
    intro h
    refine hdisjAB (id_mem_postIds (.mk aI aC aCh)) ?_
    rw [show (RNode.mk aI aC aCh).id = aI from rfl, h]
    exact id_mem_postIds _
  have hBnotA : ∀ x ∈ aCh, x.id ≠ bI := by
    intro x hx h
    have h1 : x.id ∈ postIds (RNode.mk aI aC aCh) := by
      have hm : x.id ∈ postIdsL aCh := child_id_mem_postIdsL hx
      simp [hm]
    have h2 : x.id ∈ postIds (RNode.mk bI bC bCh) := by
      rw [h]
      exact id_mem_postIds _
    exact hdisjAB h1 h2
  have hABb : (aI == bI) = false := by simp [hAB]
  have hABne : ((aI != bI) : Bool) = true := by simp [bne, hABb]
  -- step 1: compute the indent
  have hguard1 : (([RNode.mk aI aC aCh, RNode.mk bI bC bCh]).any fun c => c.id == bI) = true := by
    simp
  have hrap1 : rap bI (indentChildren bI false) (RNode.mk 0 rc [.mk aI aC aCh, .mk bI bC bCh]) =
      some (RNode.mk 0 rc [.mk aI aC aCh, .mk bI bC bCh],
        RNode.mk 0 rc (indentChildren bI false [.mk aI aC aCh, .mk bI bC bCh])) := by
    rw [rap_eq, if_pos hguard1]
  have hidx : idxOf bI [RNode.mk aI aC aCh, RNode.mk bI bC bCh] = some 1 := by
    simp [idxOf, hAB]
  have hic : indentChildren bI false [RNode.mk aI aC aCh, RNode.mk bI bC bCh] =
      [RNode.mk aI aC (aCh ++ [RNode.mk bI bC bCh])] := by
    simp [indentChildren, hidx, List.filter, hABne, hABb]
  have hstep1 : Tree.indent ⟨RNode.mk 0 rc [.mk aI aC aCh, .mk bI bC bCh], bI, tn, ti⟩ false =
      Res.ok ⟨RNode.mk 0 rc [RNode.mk aI aC (aCh ++ [RNode.mk bI bC bCh])], bI, tn, ti⟩ := by
    unfold Tree.indent
    simp only []
    rw [hrap1]
    simp only [RNode.children_mk, hidx, hic]
  refine ⟨_, hstep1, rfl, rfl, ?_⟩
  -- step 2: compute the unindent back
  have hguardA2 : ((aCh ++ [RNode.mk bI bC bCh]).any fun c => c.id == bI) = true := by
    simp
  have hrapA2 : rap bI (fun ch => ch) (RNode.mk aI aC (aCh ++ [RNode.mk bI bC bCh])) =
      some (RNode.mk aI aC (aCh ++ [RNode.mk bI bC bCh]),
        RNode.mk aI aC (aCh ++ [RNode.mk bI bC bCh])) := by
    rw [rap_eq, if_pos hguardA2]
  have houter : rap bI (fun ch => ch)
      (RNode.mk 0 rc [RNode.mk aI aC (aCh ++ [RNode.mk bI bC bCh])]) =
      some (RNode.mk aI aC (aCh ++ [RNode.mk bI bC bCh]),
        RNode.mk 0 rc [RNode.mk aI aC (aCh ++ [RNode.mk bI bC bCh])]) := by
    rw [rap_eq, if_neg (by simp [hABb]), rapL_eq_cons, hrapA2, rapL_eq_nil]
  have hfind : (aCh ++ [RNode.mk bI bC bCh]).find? (fun c => c.id == bI) =
      some (RNode.mk bI bC bCh) := by
    rw [find?_append_left_none (fun x hx => by simp [hBnotA x hx])]
    simp [List.find?]
  have hfilterA : (aCh ++ [RNode.mk bI bC bCh]).filter (fun l => l.id != bI) = aCh := by
    rw [List.filter_append]
    have h1 : aCh.filter (fun l => l.id != bI) = aCh :=
      List.filter_eq_self.mpr (fun x hx => by simp [hBnotA x hx])
    have h2 : ([RNode.mk bI bC bCh].filter fun l => l.id != bI) = [] := by
      simp [List.filter]
    rw [h1, h2, List.append_nil]
  have hinner : rap aI (fun gch =>
      insertRelChildren aI Dir.Below (RNode.mk bI bC bCh)
        (gch.map (fun c =>
          if c.id == aI then
            RNode.mk c.id c.content (c.children.filter (fun l => l.id != bI))
          else c)))
      (RNode.mk 0 rc [RNode.mk aI aC (aCh ++ [RNode.mk bI bC bCh])]) =
      some (RNode.mk 0 rc [RNode.mk aI aC (aCh ++ [RNode.mk bI bC bCh])],
        RNode.mk 0 rc [RNode.mk aI aC aCh, RNode.mk bI bC bCh]) := by
    rw [rap_eq, if_pos (by simp)]
    congr 2
    simp only [List.map, RNode.id_mk, beq_self_eq_true, if_pos, RNode.content_mk,
      RNode.children_mk, hfilterA]
    simp [insertRelChildren, idxOf, insertAt]
  have hstep2 : Tree.unindent
      ⟨RNode.mk 0 rc [RNode.mk aI aC (aCh ++ [RNode.mk bI bC bCh])], bI, tn, ti⟩ =
      Res.ok ⟨RNode.mk 0 rc [.mk aI aC aCh, .mk bI bC bCh], bI, tn, ti⟩ := by
    unfold Tree.unindent
    simp only []
    rw [houter]
    simp only [RNode.id_mk, if_neg hA0, RNode.children_mk, hfind, hinner]
  exact hstep2


/-- Witness for C8: the scenario tree `root -> [1, 2]` with node 2 active (the
state reached by `Tree::new; create_sibling`). -/
theorem claim_C8_indent_unindent_inverse_witness :
    (postIds (Tree.mk (RNode.mk 0 "" [RNode.mk 1 "" [], RNode.mk 2 "" []]) 2 3 [2, 1, 0]).root).Nodup ∧
    ∃ t1, Tree.indent (Tree.mk (RNode.mk 0 "" [RNode.mk 1 "" [], RNode.mk 2 "" []]) 2 3 [2, 1, 0]) false = Res.ok t1 ∧
      t1.root = RNode.mk 0 "" [RNode.mk (RNode.mk 1 "" []).id (RNode.mk 1 "" []).content ((RNode.mk 1 "" []).children ++ [RNode.mk 2 "" []])] ∧
      t1.activeId = (RNode.mk 2 "" []).id ∧
      Tree.unindent t1 = Res.ok (Tree.mk (RNode.mk 0 "" [RNode.mk 1 "" [], RNode.mk 2 "" []]) 2 3 [2, 1, 0]) :=
  ⟨by decide, claim_C8_indent_unindent_inverse _ (RNode.mk 1 "" []) (RNode.mk 2 "" []) ""
    rfl rfl (by decide)⟩

end Termflowy

namespace Termflowy

theorem contains_iff_mem {l : List Int} {a : Int} : l.contains a = true ↔ a ∈ l := by
  simp [List.contains]

theorem mem_tblInsert {j i : Int} {tbl : List Int} :
    j ∈ tblInsert i tbl ↔ j = i ∨ j ∈ tbl := by
  unfold tblInsert
  split
  · rename_i h
    constructor
    · exact fun hj => Or.inr hj
    · rintro (rfl | hj)
      · exact contains_iff_mem.mp h
      · exact hj
  · exact List.mem_cons

theorem tblInsert_contains_self (i : Int) (tbl : List Int) :
    (tblInsert i tbl).contains i = true := by
  rw [contains_iff_mem, mem_tblInsert]
  exact Or.inl rfl

theorem idxOf_isSome_of_any {i : Int} {l : List RNode}
    (h : l.any (fun c => c.id == i) = true) : (idxOf i l).isSome := by
  induction l with
  | nil => simp at h
  | cons c cs ih =>
    unfold idxOf
    by_cases hc : c.id = i
    · simp [hc]
    · simp only [List.any_cons, Bool.or_eq_true] at h
      rcases h with h | h
      · exact absurd (by simpa using h) hc
      · have h2 := ih h
        rw [if_neg hc]
        rcases Option.isSome_iff_exists.mp h2 with ⟨k, hk⟩
        simp [hk]

theorem idxOf_lt_length {i : Int} {l : List RNode} {k : Nat} (h : idxOf i l = some k) :
    k < l.length := by
  induction l generalizing k with
  | nil => simp [idxOf] at h
  | cons c cs ih =>
    unfold idxOf at h
    split at h
    · cases h; simp
    · cases hk : idxOf i cs with
      | none => rw [hk] at h; simp at h
      | some k2 =>
        rw [hk] at h
        simp only [Option.map] at h
        cases h
        have h2 := ih hk
        simp only [List.length_cons]
        omega

theorem idxOf_get {i : Int} {l : List RNode} {k : Nat} (h : idxOf i l = some k) :
    ∃ c, l.get? k = some c ∧ c.id = i := by
  induction l generalizing k with
  | nil => simp [idxOf] at h
  | cons c cs ih =>
    unfold idxOf at h
    split at h
    · rename_i hc
      cases h
      exact ⟨c, rfl, hc⟩
    · cases hk : idxOf i cs with
      | none => rw [hk] at h; simp at h
      | some k2 =>
        rw [hk] at h
        simp only [Option.map] at h
        cases h
        rcases ih hk with ⟨c2, hc2, hid⟩
        exact ⟨c2, by simpa using hc2, hid⟩

theorem insertAt_get_lt {α : Type} {k j : Nat} (a : α) (l : List α)
    (hj : j < k) (hk : k ≤ l.length) :
    (insertAt k a l).get? j = l.get? j := by
  induction l generalizing k j with
  | nil => simp at hk; omega
  | cons c cs ih =>
    cases k with
    | zero => omega
    | succ k2 =>
      unfold insertAt
      cases j with
      | zero => simp
      | succ j2 =>
        simp only [List.get?_cons_succ]
        exact ih (by omega) (by simpa using hk)

theorem insertAt_get_self {α : Type} {k : Nat} (a : α) (l : List α) (hk : k ≤ l.length) :
    (insertAt k a l).get? k = some a := by
  induction l generalizing k with
  | nil =>
    cases k with
    | zero => rfl
    | succ k2 => simp at hk
  | cons c cs ih =>
    cases k with
    | zero => rfl
    | succ k2 =>
      unfold insertAt
      simp only [List.get?_cons_succ]
      exact ih (by simpa using hk)

theorem insertAt_get_succ {α : Type} {k j : Nat} (a : α) (l : List α)
    (hj : k ≤ j) (hk : k ≤ l.length) :
    (insertAt k a l).get? (j + 1) = l.get? j := by
  induction l generalizing k j with
  | nil =>
    simp only [List.length_nil, Nat.le_zero] at hk
    subst hk
    rfl
  | cons c cs ih =>
    cases k with
    | zero => rfl
    | succ k2 =>
      unfold insertAt
      cases j with
      | zero => omega
      | succ j2 =>
        simp only [List.get?_cons_succ]
        exact ih (by omega) (by simpa using hk)

theorem msOfL_nil : msOfL [] = 0 := rfl

theorem msOfL_insertAt (k : Nat) (a : RNode) (l : List RNode) :
    msOfL (insertAt k a l) = msOf a + msOfL l := by
  induction l generalizing k with
  | nil =>
    cases k <;> simp [insertAt, msOfL_cons, msOfL_nil]
  | cons c cs ih =>
    cases k with
    | zero =>
      simp only [insertAt, msOfL_cons]
    | succ k2 =>
      unfold insertAt
      rw [msOfL_cons, ih, msOfL_cons]
      abel

theorem msOfL_insertRel {relId : Int} {ch : List RNode} (dir : Dir) (c : RNode)
    (h : (idxOf relId ch).isSome) :
    msOfL (insertRelChildren relId dir c ch) = msOf c + msOfL ch := by
  unfold insertRelChildren
  rcases Option.isSome_iff_exists.mp h with ⟨k, hk⟩
  rw [hk]
  cases dir <;> simp [msOfL_insertAt]

theorem mem_intRange {j g : Int} {k : Nat} :
    j ∈ intRange g k ↔ g ≤ j ∧ j < g + k := by
  unfold intRange
  simp only [List.mem_map, List.mem_range, Int.ofNat_eq_coe]
  constructor
  · rintro ⟨m, hm, rfl⟩
    omega
  · intro h
    refine ⟨(j - g).toNat, by omega, by omega⟩

theorem intRange_nodup (g : Int) (k : Nat) : (intRange g k).Nodup := by
  unfold intRange
  refine List.Nodup.map ?_ (List.nodup_range k)
  intro a b hab
  simp only [Int.ofNat_eq_coe] at hab
  omega

theorem intRange_succ (g : Int) (k : Nat) :
    intRange g (k + 1) = intRange g k ++ [g + k] := by
  unfold intRange
  rw [List.range_succ, List.map_append]
  simp

theorem intRange_append (g : Int) (k1 k2 : Nat) :
    intRange g (k1 + k2) = intRange g k1 ++ intRange (g + k1) k2 := by
  induction k2 with
  | zero => simp [intRange]
  | succ m ih =>
    have h1 : k1 + (m + 1) = (k1 + m) + 1 := by omega
    have h2 : g + (k1 : Int) + (m : Int) = g + ((k1 + m : Nat) : Int) := by omega
    rw [h1, intRange_succ, ih, intRange_succ, List.append_assoc, h2]

end Termflowy

namespace Termflowy

theorem shapeOf_mk (i : Int) (c : String) (ch : List RNode) :
    shapeOf (.mk i c ch) = .mk c (shapeOfL ch) := by rw [shapeOf]

theorem shapeOfL_nil : shapeOfL [] = [] := by rw [shapeOfL]

theorem shapeOfL_cons (c : RNode) (cs : List RNode) :
    shapeOfL (c :: cs) = shapeOf c :: shapeOfL cs := by rw [shapeOfL]

theorem makeUnique_mk (i : Int) (c : String) (ch : List RNode) (g : Int) :
    makeUnique (.mk i c ch) g =
      (.mk (makeUniqueL ch g).2 c (makeUniqueL ch g).1, (makeUniqueL ch g).2 + 1) := by
  rw [makeUnique]

theorem makeUniqueL_nil (g : Int) : makeUniqueL [] g = ([], g) := by rw [makeUniqueL]

theorem makeUniqueL_cons (c : RNode) (cs : List RNode) (g : Int) :
    makeUniqueL (c :: cs) g =
      ((makeUnique c g).1 :: (makeUniqueL cs (makeUnique c g).2).1,
        (makeUniqueL cs (makeUnique c g).2).2) := by
  rw [makeUniqueL]

/-- `make_unique` on a forest: consecutive fresh ids in post-order, generator
advanced by the forest size. -/
theorem makeUnique_specL : ∀ (l : List RNode) (g : Int),
    postIdsL (makeUniqueL l g).1 = intRange g (sizeNL l) ∧
      (makeUniqueL l g).2 = g + sizeNL l := by
  refine RNode.myrecL
    (fun n => ∀ g : Int, postIds (makeUnique n g).1 = intRange g (sizeN n) ∧
      (makeUnique n g).2 = g + sizeN n)
    (fun l => ∀ g : Int, postIdsL (makeUniqueL l g).1 = intRange g (sizeNL l) ∧
      (makeUniqueL l g).2 = g + sizeNL l)
    ?_ ?_ ?_
  · intro g
    rw [makeUniqueL_nil]
    simp [intRange]
  · intro c cs hc hcs g
    rw [makeUniqueL_cons]
    rcases hc g with ⟨hc1, hc2⟩
    rcases hcs (makeUnique c g).2 with ⟨hl1, hl2⟩
    constructor
    · rw [postIdsL_cons, hc1, hl1, hc2, sizeNL_cons, intRange_append]
    · rw [hl2, hc2, sizeNL_cons]
      push_cast
      omega
  · intro i c ch hch g
    rw [makeUnique_mk]
    rcases hch g with ⟨h1, h2⟩
    constructor
    · rw [postIds_mk, h1, h2, sizeN_mk, intRange_succ]
    · rw [h2, sizeN_mk]
      push_cast
      omega

theorem makeUnique_spec (n : RNode) (g : Int) :
    postIds (makeUnique n g).1 = intRange g (sizeN n) ∧
      (makeUnique n g).2 = g + sizeN n := by
  cases n with
  | mk i c ch =>
    rw [makeUnique_mk]
    rcases makeUnique_specL ch g with ⟨h1, h2⟩
    constructor
    · rw [postIds_mk, h1, h2, sizeN_mk, intRange_succ]
    · rw [h2, sizeN_mk]
      push_cast
      omega

theorem makeUnique_fst_id (n : RNode) (g : Int) :
    (makeUnique n g).1.id = g + sizeNL n.children := by
  cases n with
  | mk i c ch =>
    rw [makeUnique_mk]
    simp only [RNode.id_mk, RNode.children_mk]
    exact (makeUnique_specL ch g).2

/-- `make_unique` preserves shape and content. -/
theorem makeUnique_shapeL : ∀ (l : List RNode) (g : Int),
    shapeOfL (makeUniqueL l g).1 = shapeOfL l := by
  refine RNode.myrecL
    (fun n => ∀ g : Int, shapeOf (makeUnique n g).1 = shapeOf n)
    (fun l => ∀ g : Int, shapeOfL (makeUniqueL l g).1 = shapeOfL l)
    ?_ ?_ ?_
  · intro g
    rw [makeUniqueL_nil]
  · intro c cs hc hcs g
    rw [makeUniqueL_cons, shapeOfL_cons, shapeOfL_cons, hc, hcs]
  · intro i c ch hch g
    rw [makeUnique_mk, shapeOf_mk, shapeOf_mk, hch]

theorem makeUnique_shape (n : RNode) (g : Int) :
    shapeOf (makeUnique n g).1 = shapeOf n := by
  cases n with
  | mk i c ch =>
    rw [makeUnique_mk, shapeOf_mk, shapeOf_mk, makeUnique_shapeL]

theorem child_mem_allNodes {c n : RNode} (h : c ∈ n.children) : c ∈ allNodes n := by
  cases n with
  | mk i s ch =>
    simp only [RNode.children_mk] at h
    simp only [allNodes_mk, List.mem_cons]
    exact Or.inr (mem_allNodesL_of_mem h (self_mem_allNodes c))

theorem mem_allNodes_trans {n p m : RNode} (hp : p ∈ allNodes n) (hm : m ∈ allNodes p) :
    m ∈ allNodes n := by
  refine RNode.myrec
    (fun n => ∀ p, p ∈ allNodes n → ∀ m, m ∈ allNodes p → m ∈ allNodes n)
    (fun l => ∀ p, p ∈ allNodesL l → ∀ m, m ∈ allNodes p → m ∈ allNodesL l)
    ?_ ?_ ?_ n p hp m hm
  · intro p hp; simp at hp
  · intro c cs hc hcs p hp m hm
    simp only [allNodesL_cons, List.mem_append] at hp ⊢
    rcases hp with hp | hp
    · exact Or.inl (hc p hp m hm)
    · exact Or.inr (hcs p hp m hm)
  · intro i s ch hch p hp m hm
    simp only [allNodes_mk, List.mem_cons] at hp ⊢
    rcases hp with rfl | hp
    · simpa using hm
    · exact Or.inr (hch p hp m hm)

/-- Successful `insert_node` on any state whose active node is a proper node of
the tree: the rewrite happens at the active node's parent. -/
theorem insert_node_ok (t : Tree) (node : RNode) (dir : Dir)
    (hmem : t.activeId ∈ postIds t.root) (hne : t.activeId ≠ t.root.id) :
    ∃ p root2,
      rap t.activeId (insertRelChildren t.activeId dir node) t.root = some (p, root2) ∧
      Tree.insert_node t node dir =
        Res.ok { t with root := root2, idTable := tblInsert node.id t.idTable } := by
  have h := rap_isSome_of_mem (f := insertRelChildren t.activeId dir node) hmem hne
  rcases Option.isSome_iff_exists.mp h with ⟨⟨p, root2⟩, heq⟩
  refine ⟨p, root2, heq, ?_⟩
  unfold Tree.insert_node
  rw [heq]

/-- Successful `insert_subtree` on a well-formed state, fully computed. -/
theorem insert_subtree_ok (t : Tree) (st : Subtree) (dir : Dir) (hwf : WF t) :
    ∃ p root2,
      rap t.activeId
        (insertRelChildren t.activeId dir (makeUnique st.root t.nextId).1) t.root =
        some (p, root2) ∧
      Tree.insert_subtree t st dir =
        Res.ok { root := root2, activeId := (makeUnique st.root t.nextId).1.id,
                 nextId := (makeUnique st.root t.nextId).2,
                 idTable := tblInsert (makeUnique st.root t.nextId).1.id t.idTable } := by
  obtain ⟨hroot0, hactmem, hactne, hne0, hnd⟩ :
      t.root.id = 0 ∧ t.activeId ∈ postIds t.root ∧ t.activeId ≠ t.root.id ∧
        t.root.children ≠ [] ∧ (postIds t.root).Nodup := by
    obtain ⟨h0, h1, h2, h3, h4⟩ := hwf
    exact ⟨h0, h1, h2, h3, h4⟩
  set mu := makeUnique st.root t.nextId with hmu
  have hins := insert_node_ok { t with nextId := mu.2 } mu.1 dir hactmem hactne
  rcases hins with ⟨p, root2, heq, hok⟩
  refine ⟨p, root2, heq, ?_⟩
  unfold Tree.insert_subtree
  rw [← hmu]
  simp only []
  rw [hok]
  unfold Tree.activate
  simp only [tblInsert_contains_self]
  rfl

end Termflowy

namespace Termflowy

theorem sizeN_eq (n : RNode) : sizeN n = sizeNL n.children + 1 := by
  cases n
  simp

/-- C6: a successful `insert_subtree` of a subtree with at least two nodes adds
only the remapped root's id to the id table; the remapped id of every proper
descendant of the pasted subtree is reachable through child links in the new
tree, yet `activate` on it returns the identity-not-found error. -/
theorem claim_C6_insert_subtree_registers_only_root (t : Tree) (st : Subtree) (dir : Dir)
    (hwf : WF t) (hreg : Reg t) (hfresh : Fresh t) (_hmulti : st.root.children ≠ []) :
    ∃ t2, Tree.insert_subtree t st dir = Res.ok t2 ∧
      t2.activeId = (makeUnique st.root t.nextId).1.id ∧
      (∀ j : Int, j ∈ t2.idTable ↔ (j = (makeUnique st.root t.nextId).1.id ∨ j ∈ t.idTable)) ∧
      (∀ j : Int, j ∈ postIds (makeUnique st.root t.nextId).1 →
        j ≠ (makeUnique st.root t.nextId).1.id →
        j ∈ postIds t2.root ∧ Tree.activate t2 j = Res.err "could not find id to activate") := by
  rcases insert_subtree_ok t st dir hwf with ⟨p, root2, heq, hins⟩
  refine ⟨_, hins, rfl, ?_, ?_⟩
  · intro j
    exact mem_tblInsert
  · intro j hjmem hjne
    have hms : msOf root2 = msOf t.root + msOf (makeUnique st.root t.nextId).1 := by
      have h1 := rap_ms heq
      have h2 : msOfL (insertRelChildren t.activeId dir (makeUnique st.root t.nextId).1
          p.children) = msOf (makeUnique st.root t.nextId).1 + msOfL p.children :=
        msOfL_insertRel dir _ (idxOf_isSome_of_any (rap_any heq))
      rw [h2] at h1
      have h3 : msOf root2 + msOfL p.children =
          (msOf t.root + msOf (makeUnique st.root t.nextId).1) + msOfL p.children := by
        rw [h1]; abel
      exact add_right_cancel h3
    have hin2 : j ∈ postIds root2 := by
      have : j ∈ msOf root2 := by
        rw [hms]
        have : j ∈ msOf (makeUnique st.root t.nextId).1 := by
          simpa [msOf] using hjmem
        simp [Multiset.mem_add, this]
      simpa [msOf] using this
    refine ⟨hin2, ?_⟩
    -- j is a fresh id distinct from the pasted root's id, so it is unregistered
    have hrange : t.nextId ≤ j := by
      have hj := hjmem
      rw [(makeUnique_spec st.root t.nextId).1, mem_intRange] at hj
      exact hj.1
    have hnotold : j ∉ t.idTable := by
      intro hj
      have := hfresh j ((hreg j).mp hj)
      omega
    unfold Tree.activate
    have hcont : ¬ ((tblInsert (makeUnique st.root t.nextId).1.id t.idTable).contains j = true) := by
      rw [contains_iff_mem, mem_tblInsert]
      rintro (rfl | hj)
      · exact hjne rfl
      · exact hnotold hj
    rw [if_neg hcont]

end Termflowy

namespace Termflowy

theorem mem_insertAt_self {α : Type} (k : Nat) (a : α) (l : List α) :
    a ∈ insertAt k a l := by
  induction l generalizing k with
  | nil => cases k <;> simp [insertAt]
  | cons c cs ih =>
    cases k with
    | zero => simp [insertAt]
    | succ k2 =>
      unfold insertAt
      simp only [List.mem_cons]
      exact Or.inr (ih k2)

/-- C5: extracting the active subtree (spec-modelled `get_subtree`; the source
body is `todo!()`) and immediately reinserting it with `insert_subtree` pastes,
adjacent to the active node on the requested side, a copy that has exactly the
original's shape and per-node contents, with every id renumbered to a fresh
distinct value from the tree's id source; the extraction itself is a pure read
of the tree state, so the source tree is untouched by construction.  The pasted
copy is `(makeUnique st.root t.nextId).1`. -/
theorem claim_C5_round_trip_copy (t : Tree) (dir : Dir) (hwf : WF t) (_hfresh : Fresh t) :
    ∃ st t2, Tree.get_subtree_model t = some st ∧
      st.root ∈ allNodes t.root ∧ st.root.id = t.activeId ∧
      Tree.insert_subtree t st dir = Res.ok t2 ∧
      shapeOf (makeUnique st.root t.nextId).1 = shapeOf st.root ∧
      (∀ j ∈ postIds (makeUnique st.root t.nextId).1, t.nextId ≤ j) ∧
      (postIds (makeUnique st.root t.nextId).1).Nodup ∧
      (makeUnique st.root t.nextId).1 ∈ allNodes t2.root ∧
      t2.activeId = (makeUnique st.root t.nextId).1.id ∧
      (dir = Dir.Below → adjacentIds t2.root t.activeId (makeUnique st.root t.nextId).1.id) ∧
      (dir = Dir.Above → adjacentIds t2.root (makeUnique st.root t.nextId).1.id t.activeId) := by
  obtain ⟨hroot0, hactmem, hactne, hne0, hnd⟩ := hwf
  have hwf2 : WF t := ⟨hroot0, hactmem, hactne, hne0, hnd⟩
  -- compute the extraction
  have h0 := rap_isSome_of_mem (f := fun ch => ch) hactmem hactne
  rcases Option.isSome_iff_exists.mp h0 with ⟨⟨p, r0⟩, heq0⟩
  have hany : p.children.any (fun c => c.id == t.activeId) = true := rap_any heq0
  have hfindS : (p.children.find? (fun c => c.id == t.activeId)).isSome := by
    rw [List.find?_isSome]
    rcases List.any_eq_true.mp hany with ⟨x, hx, hpx⟩
    exact ⟨x, hx, by simpa using hpx⟩
  rcases Option.isSome_iff_exists.mp hfindS with ⟨a, hfind⟩
  rcases Option.isSome_iff_exists.mp (idxOf_isSome_of_any hany) with ⟨k0, hk0⟩
  have hget : Tree.get_subtree_model t =
      some { root := a, parentId := p.id,
             aboveSiblingId :=
               if k0 = 0 then none else (p.children.get? (k0 - 1)).map RNode.id } := by
    unfold Tree.get_subtree_model
    rw [heq0]
    simp only []
    rw [hfind, hk0]
  have hamem : a ∈ p.children := List.mem_of_find?_eq_some hfind
  have haid : a.id = t.activeId := by
    have h := List.find?_some hfind
    simpa using h
  -- compute the reinsertion
  rcases insert_subtree_ok t
      { root := a, parentId := p.id,
        aboveSiblingId :=
          if k0 = 0 then none else (p.children.get? (k0 - 1)).map RNode.id } dir hwf2 with
    ⟨p2, root2, heq2, hins⟩
  have hany2 : p2.children.any (fun c => c.id == t.activeId) = true := rap_any heq2
  rcases Option.isSome_iff_exists.mp (idxOf_isSome_of_any hany2) with ⟨k2, hk2⟩
  have hk2len : k2 < p2.children.length := idxOf_lt_length hk2
  rcases idxOf_get hk2 with ⟨c0, hc0get, hc0id⟩
  refine ⟨_, _, hget, ?_, haid, hins, makeUnique_shape a t.nextId, ?_, ?_, ?_, rfl, ?_, ?_⟩
  · exact mem_allNodes_trans (rap_old_mem heq0) (child_mem_allNodes hamem)
  · intro j hj
    rw [(makeUnique_spec a t.nextId).1, mem_intRange] at hj
    exact hj.1
  · rw [(makeUnique_spec a t.nextId).1]
    exact intRange_nodup _ _
  · -- pasted node is in the new tree
    have hpmem := rap_new_mem heq2
    have hinside : (makeUnique a t.nextId).1 ∈
        insertRelChildren t.activeId dir (makeUnique a t.nextId).1 p2.children := by
      unfold insertRelChildren
      rw [hk2]
      cases dir
      · exact mem_insertAt_self _ _ _
      · exact mem_insertAt_self _ _ _
    refine mem_allNodes_trans hpmem (child_mem_allNodes ?_)
    simpa using hinside
  · -- Below: pasted right after the active node
    rintro rfl
    have hrel : insertRelChildren t.activeId Dir.Below (makeUnique a t.nextId).1 p2.children =
        insertAt (k2 + 1) (makeUnique a t.nextId).1 p2.children := by
      unfold insertRelChildren
      rw [hk2]
    refine ⟨RNode.mk p2.id p2.content
        (insertRelChildren t.activeId Dir.Below (makeUnique a t.nextId).1 p2.children),
      rap_new_mem heq2, k2, ?_, ?_⟩
    · rw [List.get?_map]
      simp only [RNode.children_mk, hrel]
      rw [insertAt_get_lt _ _ (by omega) (by omega), hc0get]
      simp [hc0id]
    · rw [List.get?_map]
      simp only [RNode.children_mk, hrel]
      rw [insertAt_get_self _ _ (by omega)]
      rfl
  · -- Above: pasted right before the active node
    rintro rfl
    have hrel : insertRelChildren t.activeId Dir.Above (makeUnique a t.nextId).1 p2.children =
        insertAt k2 (makeUnique a t.nextId).1 p2.children := by
      unfold insertRelChildren
      rw [hk2]
    refine ⟨RNode.mk p2.id p2.content
        (insertRelChildren t.activeId Dir.Above (makeUnique a t.nextId).1 p2.children),
      rap_new_mem heq2, k2, ?_, ?_⟩
    · rw [List.get?_map]
      simp only [RNode.children_mk, hrel]
      rw [insertAt_get_self _ _ (by omega)]
      rfl
    · rw [List.get?_map]
      simp only [RNode.children_mk, hrel]
      rw [insertAt_get_succ _ _ (by omega) (by omega), hc0get]
      simp [hc0id]

end Termflowy

namespace Termflowy

/-- The fresh tree (generator seeded at 1) is well-formed. -/
theorem wf_new1 : WF (Tree.new 1) :=
  ⟨rfl, by decide, by decide, List.cons_ne_nil _ _, by decide⟩

/-- The fresh tree registers exactly its ids. -/
theorem reg_new1 : Reg (Tree.new 1) := fun _ => Iff.rfl

/-- All ids of the fresh tree are below its generator counter. -/
theorem fresh_new1 : Fresh (Tree.new 1) := by
  intro j hj
  have hj2 : j ∈ [(1 : Int), 0] := hj
  simp only [List.mem_cons, List.mem_singleton] at hj2
  rcases hj2 with rfl | rfl | h
  · decide
  · decide
  · simp at h

/-- Witness for C6: paste the two-node subtree `5["a"] -> 6["b"]` below the
active node of the fresh tree.  The remap gives the descendant id 2 and the
root id 3; id 2 is reachable in the tree but `activate 2` fails. -/
theorem claim_C6_insert_subtree_registers_only_root_witness :
    (WF (Tree.new 1) ∧ Reg (Tree.new 1) ∧ Fresh (Tree.new 1) ∧
      (RNode.mk 5 "a" [RNode.mk 6 "b" []]).children ≠ []) ∧
    ∃ t2, Tree.insert_subtree (Tree.new 1)
        (Subtree.mk (RNode.mk 5 "a" [RNode.mk 6 "b" []]) 0 none) Dir.Below = Res.ok t2 ∧
      t2.activeId = (makeUnique (RNode.mk 5 "a" [RNode.mk 6 "b" []]) (Tree.new 1).nextId).1.id ∧
      (∀ j : Int, j ∈ t2.idTable ↔
        (j = (makeUnique (RNode.mk 5 "a" [RNode.mk 6 "b" []]) (Tree.new 1).nextId).1.id ∨
          j ∈ (Tree.new 1).idTable)) ∧
      (∀ j : Int,
        j ∈ postIds (makeUnique (RNode.mk 5 "a" [RNode.mk 6 "b" []]) (Tree.new 1).nextId).1 →
        j ≠ (makeUnique (RNode.mk 5 "a" [RNode.mk 6 "b" []]) (Tree.new 1).nextId).1.id →
        j ∈ postIds t2.root ∧ Tree.activate t2 j = Res.err "could not find id to activate") :=
  ⟨⟨wf_new1, reg_new1, fresh_new1, List.cons_ne_nil _ _⟩,
    claim_C6_insert_subtree_registers_only_root (Tree.new 1)
      (Subtree.mk (RNode.mk 5 "a" [RNode.mk 6 "b" []]) 0 none) Dir.Below
      wf_new1 reg_new1 fresh_new1 (List.cons_ne_nil _ _)⟩

/-- Witness for C5: round-trip copy of the active subtree of the fresh tree,
pasted below. -/
theorem claim_C5_round_trip_copy_witness :
    (WF (Tree.new 1) ∧ Fresh (Tree.new 1)) ∧
    ∃ st t2, Tree.get_subtree_model (Tree.new 1) = some st ∧
      st.root ∈ allNodes (Tree.new 1).root ∧ st.root.id = (Tree.new 1).activeId ∧
      Tree.insert_subtree (Tree.new 1) st Dir.Below = Res.ok t2 ∧
      shapeOf (makeUnique st.root (Tree.new 1).nextId).1 = shapeOf st.root ∧
      (∀ j ∈ postIds (makeUnique st.root (Tree.new 1).nextId).1, (Tree.new 1).nextId ≤ j) ∧
      (postIds (makeUnique st.root (Tree.new 1).nextId).1).Nodup ∧
      (makeUnique st.root (Tree.new 1).nextId).1 ∈ allNodes t2.root ∧
      t2.activeId = (makeUnique st.root (Tree.new 1).nextId).1.id ∧
      (Dir.Below = Dir.Below →
        adjacentIds t2.root (Tree.new 1).activeId
          (makeUnique st.root (Tree.new 1).nextId).1.id) ∧
      (Dir.Below = Dir.Above →
        adjacentIds t2.root (makeUnique st.root (Tree.new 1).nextId).1.id
          (Tree.new 1).activeId) :=
  ⟨⟨wf_new1, fresh_new1⟩, claim_C5_round_trip_copy (Tree.new 1) Dir.Below wf_new1 fresh_new1⟩

end Termflowy

namespace Termflowy

theorem mem_msOfL_le {x : RNode} {l : List RNode} (h : x ∈ l) : msOf x ≤ msOfL l := by
  induction l with
  | nil => cases h
  | cons c cs ih =>
    rw [msOfL_cons]
    rcases List.mem_cons.mp h with rfl | h
    · exact le_add_right le_rfl
    · exact le_add_left (ih h)

theorem one_le_count_id {a : RNode} {i : Int} (h : a.id = i) :
    1 ≤ Multiset.count i (msOf a) := by
  rw [Multiset.one_le_count_iff_mem]
  have := id_mem_postIds a
  rw [h] at this
  simpa [msOf] using this

/-- In a forest where the id `i` occurs at most once, removing the children
with id `i` removes exactly the subtree of the unique child `a` carrying it. -/
theorem filter_ms_of_unique {i : Int} :
    ∀ (l : List RNode), Multiset.count i (msOfL l) ≤ 1 →
      ∀ a ∈ l, a.id = i →
        msOfL l = msOfL (l.filter (fun x => x.id != i)) + msOf a := by
  intro l
  induction l with
  | nil => intro _ a ha; cases ha
  | cons c cs ih =>
    intro hcount a ha haid
    rw [msOfL_cons, Multiset.count_add] at hcount
    rcases List.mem_cons.mp ha with rfl | ha
    · have hca : (a.id != i) = false := by simp [haid]
      have hnone : ∀ x ∈ cs, x.id ≠ i := by
        intro x hx hxi
        have h1 : 1 ≤ Multiset.count i (msOf x) := one_le_count_id hxi
        have h2 : Multiset.count i (msOf x) ≤ Multiset.count i (msOfL cs) :=
          Multiset.count_le_of_le i (mem_msOfL_le hx)
        have h3 : 1 ≤ Multiset.count i (msOf a) := one_le_count_id haid
        omega
      have hfcs : cs.filter (fun x => x.id != i) = cs :=
        List.filter_eq_self.mpr (fun x hx => by simp [hnone x hx])
      rw [List.filter_cons, hca]
      rw [if_neg (by simp)]
      rw [hfcs, msOfL_cons]
      abel
    · have hci : c.id ≠ i := by
        intro hcid
        have h1 : 1 ≤ Multiset.count i (msOf c) := one_le_count_id hcid
        have h2 : 1 ≤ Multiset.count i (msOf a) := one_le_count_id haid
        have h3 : Multiset.count i (msOf a) ≤ Multiset.count i (msOfL cs) :=
          Multiset.count_le_of_le i (mem_msOfL_le ha)
        omega
      have hcb : (c.id != i) = true := by simp [hci]
      rw [List.filter_cons, hcb]
      rw [if_pos (by simp)]
      rw [msOfL_cons, msOfL_cons, ih (by omega) a ha haid]
      abel

/-- C2: `delete` fails (typed error, tree untouched) exactly when the active
node is the root's only child; otherwise it succeeds, unlinks the active
subtree, removes exactly its ids from the tree and from the id table, and the
new active node is the below-sibling, else the above-sibling, else the parent.
The second conjunct is the spec's concrete scenario `root -> [A -> [B, C]]`,
with `B` active: the first delete activates `C`, the second activates `A`. -/
theorem claim_C2_delete_rule :
    (∀ (t : Tree) (p : RNode) (k : Nat) (a : RNode),
      WF t → Reg t →
      findParent t.root t.activeId = some p →
      idxOf t.activeId p.children = some k →
      p.children.get? k = some a →
      ((p.id = 0 ∧ p.children.length = 1) → Tree.delete t = Res.err "cannot delete last node") ∧
      (¬ (p.id = 0 ∧ p.children.length = 1) →
        ∃ t2, Tree.delete t = Res.ok t2 ∧
          (∀ j ∈ postIds a, j ∉ t2.idTable ∧ j ∉ postIds t2.root) ∧
          (∀ j : Int, j ∈ postIds t2.root ↔ (j ∈ postIds t.root ∧ j ∉ postIds a)) ∧
          (∀ j : Int, j ∈ t2.idTable ↔ (j ∈ t.idTable ∧ j ∉ postIds a)) ∧
          t2.activeId =
            (match p.children.get? (k + 1) with
             | some b => b.id
             | none =>
               match (if k = 0 then none else p.children.get? (k - 1)) with
               | some ab => ab.id
               | none => p.id))) ∧
    (∃ t1 t2,
      Tree.delete (Tree.mk
        (RNode.mk 0 "" [RNode.mk 1 "" [RNode.mk 2 "" [], RNode.mk 3 "" []]]) 2 4 [3, 2, 1, 0]) =
        Res.ok t1 ∧
      t1.activeId = 3 ∧
      Tree.delete t1 = Res.ok t2 ∧ t2.activeId = 1) := by
  constructor
  · intro t p k a hwf hreg hfp hidx hget
    obtain ⟨hroot0, hactmem, hactne, hne0, hnd⟩ := hwf
    have hs := rap_isSome_of_mem
      (f := List.filter (fun l => l.id != t.activeId)) hactmem hactne
    rcases Option.isSome_iff_exists.mp hs with ⟨⟨p', root2⟩, heq⟩
    -- the parent found by delete's rewrite is the hypothesised parent
    have hp' : p' = p := by
      have hag := rap_fst_agnostic t.activeId
        (List.filter (fun l => l.id != t.activeId)) (fun ch => ch) t.root
      rw [heq] at hag
      unfold findParent at hfp
      cases hrapid : rap t.activeId (fun ch => ch) t.root with
      | none => rw [hrapid] at hfp; simp at hfp
      | some pr =>
        rw [hrapid] at hag hfp
        simp at hag hfp
        exact hag.trans hfp
    subst hp'
    have hamem : a ∈ p'.children := List.get?_mem hget
    have hklen : k < p'.children.length := idxOf_lt_length hidx
    have haid : a.id = t.activeId := by
      rcases idxOf_get hidx with ⟨c0, hc0, hc0id⟩
      rw [hget] at hc0
      cases hc0
      exact hc0id
    -- a's ids are tree ids, and they are registered
    have hpmem : p' ∈ allNodes t.root := rap_old_mem heq
    have hchle : msOfL p'.children ≤ msOf t.root := by
      have h1 : msOf p' ≤ msOf t.root := msOf_le_of_mem_allNodes hpmem
      have h2 : msOfL p'.children ≤ msOf p' := by
        cases p' with
        | mk pi pc pch =>
          rw [msOf_node]
          simpa using le_add_right le_rfl
      exact le_trans h2 h1
    have hale : msOf a ≤ msOf t.root := le_trans (mem_msOfL_le hamem) hchle
    have hsubtree : ∀ j ∈ postIds a, j ∈ postIds t.root := by
      intro j hj
      have : j ∈ msOf a := by simpa [msOf] using hj
      have := Multiset.mem_of_le hale this
      simpa [msOf] using this
    have hcount1 : ∀ j : Int, Multiset.count j (msOf t.root) ≤ 1 := by
      intro j
      have : (msOf t.root).Nodup := by simpa [msOf] using hnd
      exact Multiset.nodup_iff_count_le_one.mp this j
    -- the filter removes exactly a's ids
    have hfilter : msOfL p'.children =
        msOfL (p'.children.filter (fun x => x.id != t.activeId)) + msOf a := by
      refine filter_ms_of_unique p'.children ?_ a hamem haid
      calc Multiset.count t.activeId (msOfL p'.children)
          ≤ Multiset.count t.activeId (msOf t.root) :=
            Multiset.count_le_of_le _ hchle
        _ ≤ 1 := hcount1 _
    have hms : msOf root2 + msOf a = msOf t.root := by
      have h1 := rap_ms heq
      rw [hfilter] at h1
      have h2 : msOf root2 + msOf a +
          msOfL (p'.children.filter (fun x => x.id != t.activeId)) =
          msOf t.root + msOfL (p'.children.filter (fun x => x.id != t.activeId)) := by
        calc msOf root2 + msOf a +
            msOfL (p'.children.filter (fun x => x.id != t.activeId))
            = msOf root2 + (msOfL (p'.children.filter (fun x => x.id != t.activeId)) +
                msOf a) := by abel
          _ = msOf t.root + msOfL (p'.children.filter (fun x => x.id != t.activeId)) := h1
      exact add_right_cancel h2
    -- membership characterisation of the new tree
    have hmem2 : ∀ j : Int, j ∈ postIds root2 ↔ (j ∈ postIds t.root ∧ j ∉ postIds a) := by
      intro j
      have hcadd : Multiset.count j (msOf root2) + Multiset.count j (msOf a) =
          Multiset.count j (msOf t.root) := by
        rw [← Multiset.count_add, hms]
      constructor
      · intro hj
        have hj1 : 1 ≤ Multiset.count j (msOf root2) :=
          Multiset.one_le_count_iff_mem.mpr (by simpa [msOf] using hj)
        have hle := hcount1 j
        constructor
        · have : 1 ≤ Multiset.count j (msOf t.root) := by omega
          have := Multiset.one_le_count_iff_mem.mp this
          simpa [msOf] using this
        · intro hja
          have : 1 ≤ Multiset.count j (msOf a) :=
            Multiset.one_le_count_iff_mem.mpr (by simpa [msOf] using hja)
          omega
      · rintro ⟨hjt, hja⟩
        have h1 : 1 ≤ Multiset.count j (msOf t.root) :=
          Multiset.one_le_count_iff_mem.mpr (by simpa [msOf] using hjt)
        have h0 : Multiset.count j (msOf a) = 0 := by
          by_contra h
          have : 1 ≤ Multiset.count j (msOf a) := by omega
          exact hja (by simpa [msOf] using Multiset.one_le_count_iff_mem.mp this)
        have : 1 ≤ Multiset.count j (msOf root2) := by omega
        simpa [msOf] using Multiset.one_le_count_iff_mem.mp this
    -- now compute delete
    have hall : (postIds a).all (fun j => t.idTable.contains j) = true := by
      rw [List.all_eq_true]
      intro j hj
      rw [contains_iff_mem]
      exact (hreg j).mpr (hsubtree j hj)
    constructor
    · intro hcond
      unfold Tree.delete
      rw [heq]
      simp only [hidx, hget]
      rw [if_pos hcond]
    · intro hcond
      unfold Tree.delete
      rw [heq]
      simp only [hidx, hget]
      rw [if_neg hcond]
      -- the successor is always defined
      have hna : (match (if k = 0 then none else p'.children.get? (k - 1)),
          p'.children.get? (k + 1) with
          | none, none => if p'.id ≠ 0 then some p'.id else none
          | _, some b => some b.id
          | some ab, none => some ab.id : Option Int).isSome := by
        cases hab : (if k = 0 then none else p'.children.get? (k - 1)) with
        | some ab =>
          cases hb : p'.children.get? (k + 1) with
          | some b => simp
          | none => simp
        | none =>
          cases hb : p'.children.get? (k + 1) with
          | some b => simp
          | none =>
            have hk0 : k = 0 := by
              by_cases h : k = 0
              · exact h
              · rw [if_neg h] at hab
                have : k - 1 < p'.children.length := by omega
                rw [List.get?_eq_none] at hab
                omega
            have hlen1 : p'.children.length = 1 := by
              rw [List.get?_eq_none] at hb
              omega
            have : p'.id ≠ 0 := fun h0 => hcond ⟨h0, hlen1⟩
            simp [this]
      rcases Option.isSome_iff_exists.mp hna with ⟨na, hnaeq⟩
      rw [hnaeq]
      simp only []
      rw [if_pos hall]
      refine ⟨_, rfl, ?_, ?_, ?_, ?_⟩
      · intro j hj
        constructor
        · intro hjt
          rw [List.mem_filter] at hjt
          have hcj : (postIds a).contains j = true := by
            rw [contains_iff_mem]; exact hj
          rw [hcj] at hjt
          simp at hjt
        · intro hjr
          exact ((hmem2 j).mp hjr).2 hj
      · exact hmem2
      · intro j
        rw [List.mem_filter]
        constructor
        · rintro ⟨hjl, hjp⟩
          refine ⟨hjl, ?_⟩
          intro hja
          rw [contains_iff_mem.mpr hja] at hjp
          simp at hjp
        · rintro ⟨hjl, hja⟩
          refine ⟨hjl, ?_⟩
          have : (postIds a).contains j = false := by
            by_contra h
            have h2 : (postIds a).contains j = true := by
              cases hcc : (postIds a).contains j
              · exact absurd hcc h
              · rfl
            exact hja (contains_iff_mem.mp h2)
          rw [this]
          rfl
      · -- the successor follows the below / above / parent priority
        show na = _
        cases hb : p'.children.get? (k + 1) with
        | some b =>
          cases hab : (if k = 0 then none else p'.children.get? (k - 1)) with
          | some ab =>
            rw [hab, hb] at hnaeq
            simp only [Option.some_inj] at hnaeq
            rw [← hnaeq]
          | none =>
            rw [hab, hb] at hnaeq
            simp only [Option.some_inj] at hnaeq
            rw [← hnaeq]
        | none =>
          cases hab : (if k = 0 then none else p'.children.get? (k - 1)) with
          | some ab =>
            rw [hab, hb] at hnaeq
            simp only [Option.some_inj] at hnaeq
            rw [← hnaeq]
          | none =>
            rw [hab, hb] at hnaeq
            have hk0 : k = 0 := by
              by_cases h : k = 0
              · exact h
              · rw [if_neg h] at hab
                rw [List.get?_eq_none] at hab
                omega
            have hlen1 : p'.children.length = 1 := by
              rw [List.get?_eq_none] at hb
              omega
            have hpne : p'.id ≠ 0 := fun h0 => hcond ⟨h0, hlen1⟩
            rw [if_pos hpne] at hnaeq
            simp only [Option.some_inj] at hnaeq
            rw [← hnaeq]
  · refine ⟨_, _, rfl, rfl, rfl, rfl⟩

end Termflowy

namespace Termflowy

/-- Witness for C2: the scenario tree `root -> [1 -> [2, 3]]` with node 2
active; its parent is node 1, node 2 sits at index 0 with below-sibling 3. -/
theorem claim_C2_delete_rule_witness :
    (WF (Tree.mk (RNode.mk 0 "" [RNode.mk 1 "" [RNode.mk 2 "" [], RNode.mk 3 "" []]])
        2 4 [2, 3, 1, 0]) ∧
     Reg (Tree.mk (RNode.mk 0 "" [RNode.mk 1 "" [RNode.mk 2 "" [], RNode.mk 3 "" []]])
        2 4 [2, 3, 1, 0]) ∧
     findParent (RNode.mk 0 "" [RNode.mk 1 "" [RNode.mk 2 "" [], RNode.mk 3 "" []]]) 2 =
       some (RNode.mk 1 "" [RNode.mk 2 "" [], RNode.mk 3 "" []]) ∧
     idxOf 2 (RNode.mk 1 "" [RNode.mk 2 "" [], RNode.mk 3 "" []]).children = some 0 ∧
     (RNode.mk 1 "" [RNode.mk 2 "" [], RNode.mk 3 "" []]).children.get? 0 =
       some (RNode.mk 2 "" [])) ∧
    (((RNode.mk 1 "" [RNode.mk 2 "" [], RNode.mk 3 "" []]).id = 0 ∧
        (RNode.mk 1 "" [RNode.mk 2 "" [], RNode.mk 3 "" []]).children.length = 1) →
      Tree.delete (Tree.mk (RNode.mk 0 "" [RNode.mk 1 "" [RNode.mk 2 "" [], RNode.mk 3 "" []]])
        2 4 [2, 3, 1, 0]) = Res.err "cannot delete last node") ∧
    (¬ ((RNode.mk 1 "" [RNode.mk 2 "" [], RNode.mk 3 "" []]).id = 0 ∧
        (RNode.mk 1 "" [RNode.mk 2 "" [], RNode.mk 3 "" []]).children.length = 1) →
      ∃ t2, Tree.delete (Tree.mk
          (RNode.mk 0 "" [RNode.mk 1 "" [RNode.mk 2 "" [], RNode.mk 3 "" []]])
          2 4 [2, 3, 1, 0]) = Res.ok t2 ∧
        (∀ j ∈ postIds (RNode.mk 2 "" []), j ∉ t2.idTable ∧ j ∉ postIds t2.root) ∧
        (∀ j : Int, j ∈ postIds t2.root ↔
          (j ∈ postIds (RNode.mk 0 "" [RNode.mk 1 "" [RNode.mk 2 "" [], RNode.mk 3 "" []]]) ∧
            j ∉ postIds (RNode.mk 2 "" []))) ∧
        (∀ j : Int, j ∈ t2.idTable ↔
          (j ∈ [(2 : Int), 3, 1, 0] ∧ j ∉ postIds (RNode.mk 2 "" []))) ∧
        t2.activeId =
          (match (RNode.mk 1 "" [RNode.mk 2 "" [], RNode.mk 3 "" []]).children.get? (0 + 1) with
           | some b => b.id
           | none =>
             match (if (0 : Nat) = 0 then none
               else (RNode.mk 1 "" [RNode.mk 2 "" [], RNode.mk 3 "" []]).children.get? (0 - 1)) with
             | some ab => ab.id
             | none => (RNode.mk 1 "" [RNode.mk 2 "" [], RNode.mk 3 "" []]).id)) :=
  ⟨⟨⟨rfl, by decide, by decide, List.cons_ne_nil _ _, by decide⟩, fun _ => Iff.rfl,
      rfl, rfl, rfl⟩,
    claim_C2_delete_rule.1
      (Tree.mk (RNode.mk 0 "" [RNode.mk 1 "" [RNode.mk 2 "" [], RNode.mk 3 "" []]])
        2 4 [2, 3, 1, 0])
      (RNode.mk 1 "" [RNode.mk 2 "" [], RNode.mk 3 "" []]) 0 (RNode.mk 2 "" [])
      ⟨rfl, by decide, by decide, List.cons_ne_nil _ _, by decide⟩ (fun _ => Iff.rfl)
      rfl rfl rfl⟩

end Termflowy

namespace Termflowy

theorem is_in_bounds_iff {p max : Point} :
    is_in_bounds p max = true ↔ (0 ≤ p.1 ∧ p.1 < max.1 ∧ 0 ≤ p.2 ∧ p.2 < max.2) := by
  unfold is_in_bounds
  exact decide_eq_true_iff

theorem linIdx_bounds {p max : Point} (hc : 0 < max.2)
    (h : is_in_bounds p max = true) :
    0 ≤ linIdx max p ∧ linIdx max p < max.1 * max.2 := by
  rw [is_in_bounds_iff] at h
  unfold linIdx
  constructor
  · nlinarith [h.1, h.2.2.1]
  · nlinarith [h.2.1, h.2.2.2]

/-- One `linear_move` step from a column-canonical position advances the
flattened index by exactly the offset; it succeeds exactly when the new index
is still inside the grid. -/
theorem linear_move_char (pos max : Point) (off : Int) (hc : 0 < max.2)
    (_h2 : 0 ≤ pos.2) (_h2b : pos.2 < max.2) :
    (∀ q, linear_move pos max off = some q →
      is_in_bounds q max = true ∧ linIdx max q = linIdx max pos + off) ∧
    ((0 ≤ linIdx max pos + off ∧ linIdx max pos + off < max.1 * max.2) →
      (linear_move pos max off).isSome) := by
  have hm0 : 0 ≤ (pos.2 + off).emod max.2 := Int.emod_nonneg _ (by omega)
  have hmC : (pos.2 + off).emod max.2 < max.2 := Int.emod_lt_of_pos _ hc
  have hkey : (pos.1 + (pos.2 + off).ediv max.2) * max.2 + (pos.2 + off).emod max.2 =
      linIdx max pos + off := by
    have h : max.2 * ((pos.2 + off).ediv max.2) + (pos.2 + off).emod max.2 = pos.2 + off :=
      Int.ediv_add_emod _ _
    unfold linIdx
    calc (pos.1 + (pos.2 + off).ediv max.2) * max.2 + (pos.2 + off).emod max.2
        = pos.1 * max.2 +
            (max.2 * ((pos.2 + off).ediv max.2) + (pos.2 + off).emod max.2) := by ring
      _ = pos.1 * max.2 + (pos.2 + off) := by rw [h]
      _ = pos.1 * max.2 + pos.2 + off := by ring
  have hrdiv : pos.1 + (pos.2 + off).ediv max.2 = (linIdx max pos + off).ediv max.2 := by
    have h5 : ((pos.2 + off).emod max.2 +
        (pos.1 + (pos.2 + off).ediv max.2) * max.2).ediv max.2 =
        ((pos.2 + off).emod max.2).ediv max.2 + (pos.1 + (pos.2 + off).ediv max.2) :=
      Int.add_mul_ediv_right _ _ (by omega)
    have h6 : ((pos.2 + off).emod max.2).ediv max.2 = 0 :=
      Int.ediv_eq_zero_of_lt hm0 hmC
    rw [← hkey]
    rw [show (pos.1 + (pos.2 + off).ediv max.2) * max.2 + (pos.2 + off).emod max.2 =
        (pos.2 + off).emod max.2 + (pos.1 + (pos.2 + off).ediv max.2) * max.2 from by ring]
    rw [h5, h6]
    ring
  constructor
  · intro q hq
    simp only [linear_move] at hq
    split at hq
    · rename_i hr
      cases hq
      constructor
      · rw [is_in_bounds_iff]
        exact ⟨hr.1, hr.2, hm0, hmC⟩
      · unfold linIdx
        exact hkey
    · cases hq
  · intro hs
    simp only [linear_move]
    rw [if_pos ?_]
    · simp
    · constructor
      · rw [hrdiv]
        exact Int.ediv_nonneg hs.1 (le_of_lt hc)
      · rw [hrdiv]
        have h7 : ((linIdx max pos + off).ediv max.2 < max.1) ↔
            (linIdx max pos + off < max.1 * max.2) := Int.ediv_lt_iff_lt_mul hc
        exact h7.mpr hs.2

theorem stepN_zero (max : Point) (off : Int) (pos : Point) :
    stepN max off 0 pos = some pos := rfl

theorem stepN_one (max : Point) (off : Int) (pos : Point) :
    stepN max off 1 pos = linear_move pos max off := by
  unfold stepN
  cases linear_move pos max off <;> rfl

theorem stepN_shift {max pos q1 : Point} {off : Int}
    (h : linear_move pos max off = some q1) (j : Nat) :
    stepN max off (j + 1) pos = stepN max off j q1 := by
  unfold stepN
  rw [h]
  cases j <;> rfl

/-- Every successful `go_while` scan stops at the first in-bounds cell failing
the predicate (fuel-independent). -/
theorem goWhileAux_ok (ra : Raster) (off : Int) (pred : PixelState → Bool)
    (hc : 0 < ra.max.2) :
    ∀ (fuel : Nat) (pos : Point), is_in_bounds pos ra.max = true →
      ∀ q, goWhileAux ra off pred fuel pos = Res.ok q →
        is_in_bounds q ra.max = true ∧ pred (ra.cell q) = false ∧
        ∃ m, 1 ≤ m ∧ stepN ra.max off m pos = some q ∧
          ∀ j q2, 1 ≤ j → j < m → stepN ra.max off j pos = some q2 →
            pred (ra.cell q2) = true := by
  intro fuel
  induction fuel with
  | zero =>
    intro pos _ q hq
    unfold goWhileAux at hq
    cases hq
  | succ f ih =>
    intro pos hpos q hq
    have hposb := is_in_bounds_iff.mp hpos
    unfold goWhileAux at hq
    cases hlm : linear_move pos ra.max off with
    | none =>
      simp only [hlm] at hq
      cases hq
    | some q1 =>
      simp only [hlm] at hq
      have hq1 := (linear_move_char pos ra.max off hc hposb.2.2.1 hposb.2.2.2).1 q1 hlm
      have hget : ra.get q1 = some (ra.cell q1) := by
        unfold Raster.get
        rw [if_pos hq1.1]
      simp only [hget] at hq
      by_cases hp : pred (ra.cell q1) = true
      · rw [if_pos hp] at hq
        rcases ih q1 hq1.1 q hq with ⟨hb, hpr, m, hm1, hstep, hbet⟩
        refine ⟨hb, hpr, m + 1, by omega, ?_, ?_⟩
        · rw [stepN_shift hlm]
          exact hstep
        · intro j q2 hj1 hjm hstepj
          cases j with
          | zero => omega
          | succ j2 =>
            rw [stepN_shift hlm] at hstepj
            cases j2 with
            | zero =>
              rw [stepN_zero] at hstepj
              cases hstepj
              exact hp
            | succ j3 =>
              exact hbet (j3 + 1) q2 (by omega) (by omega) hstepj
      · rw [if_neg hp] at hq
        cases hq
        refine ⟨hq1.1, by simpa using hp, 1, le_rfl, ?_, ?_⟩
        · rw [stepN_one]
          exact hlm
        · intro j q2 hj1 hjm
          omega
  
/-- With enough fuel, a scan over cells that all satisfy the predicate runs
off the grid and returns the bounds error. -/
theorem goWhileAux_err (ra : Raster) (off : Int) (pred : PixelState → Bool)
    (hc : 0 < ra.max.2) (hoff : off = 1 ∨ off = -1) :
    ∀ (fuel : Nat) (pos : Point), is_in_bounds pos ra.max = true →
      (if off = 1 then ra.max.1 * ra.max.2 - linIdx ra.max pos
        else linIdx ra.max pos + 1).toNat < fuel →
      (∀ j q2, 1 ≤ j → stepN ra.max off j pos = some q2 →
        pred (ra.cell q2) = true) →
      goWhileAux ra off pred fuel pos = Res.err "could not browse past bounds" := by
  intro fuel
  induction fuel with
  | zero =>
    intro pos hpos hfuel _
    have := linIdx_bounds hc hpos
    rcases hoff with rfl | rfl
    · rw [if_pos rfl] at hfuel
      omega
    · rw [if_neg (by decide)] at hfuel
      omega
  | succ f ih =>
    intro pos hpos hfuel hall
    have hlin := linIdx_bounds hc hpos
    have hposb := is_in_bounds_iff.mp hpos
    unfold goWhileAux
    cases hlm : linear_move pos ra.max off with
    | none => simp only [hlm]
    | some q1 =>
      simp only [hlm]
      have hq1 := (linear_move_char pos ra.max off hc hposb.2.2.1 hposb.2.2.2).1 q1 hlm
      have hget : ra.get q1 = some (ra.cell q1) := by
        unfold Raster.get
        rw [if_pos hq1.1]
      simp only [hget]
      have hp1 : pred (ra.cell q1) = true := by
        refine hall 1 q1 le_rfl ?_
        rw [stepN_one]
        exact hlm
      rw [if_pos hp1]
      have hq1lin := linIdx_bounds hc hq1.1
      refine ih q1 hq1.1 ?_ ?_
      · rcases hoff with rfl | rfl
        · rw [if_pos rfl] at hfuel ⊢
          omega
        · rw [if_neg (by decide)] at hfuel ⊢
          omega
      · intro j q2 hj1 hstepj
        refine hall (j + 1) q2 (by omega) ?_
        rw [stepN_shift hlm]
        exact hstepj

end Termflowy

namespace Termflowy

/-- C9: for a browser bound to an in-bounds position of a positive-size grid,
`go_while` in a horizontal direction either returns an in-bounds position that
is the first cell (walking one `linear_move` step at a time) whose state fails
the predicate, with every strictly earlier visited cell satisfying it, or —
when every in-bounds cell along the remaining ray satisfies the predicate, so
the grid edge is reached first — returns an error; and `go_no_wrap` returns
exactly the adjacent in-bounds position one cell away in the given cardinal
direction, or an error when that position is out of bounds, never an
out-of-bounds position. -/
theorem claim_C9_browser_motion (b : Browser) (pred : PixelState → Bool)
    (hr : 0 < b.raster.max.1) (hc : 0 < b.raster.max.2)
    (hb : is_in_bounds b.pos b.raster.max = true) :
    (∀ dir : Direction, (dir = Direction.Left ∨ dir = Direction.Right) →
      (∀ b2, Browser.go_while b dir pred = Res.ok b2 →
        is_in_bounds b2.pos b.raster.max = true ∧
        pred (b.raster.cell b2.pos) = false ∧
        ∃ m, 1 ≤ m ∧ stepN b.raster.max (offDir dir) m b.pos = some b2.pos ∧
          ∀ j q, 1 ≤ j → j < m → stepN b.raster.max (offDir dir) j b.pos = some q →
            pred (b.raster.cell q) = true) ∧
      ((∀ j q, 1 ≤ j → stepN b.raster.max (offDir dir) j b.pos = some q →
          pred (b.raster.cell q) = true) →
        ∃ e, Browser.go_while b dir pred = Res.err e)) ∧
    (∀ dir : Direction,
      (∀ b2, Browser.go_no_wrap b dir = Res.ok b2 →
        b2.pos = add_points b.pos dir.delta ∧
          is_in_bounds b2.pos b.raster.max = true) ∧
      (¬ (is_in_bounds (add_points b.pos dir.delta) b.raster.max = true) →
        Browser.go_no_wrap b dir = Res.err "hit bounds")) := by
  have hlin := linIdx_bounds hc hb
  constructor
  · intro dir hdir
    constructor
    · intro b2 hok
      rcases hdir with rfl | rfl
      · unfold Browser.go_while at hok
        cases hres : goWhileAux b.raster (-1) pred (stdFuel b.raster.max) b.pos with
        | ok q =>
          simp only [hres] at hok
          cases hok
          have h := goWhileAux_ok b.raster (-1) pred hc (stdFuel b.raster.max) b.pos hb q hres
          simpa [offDir] using h
        | err e => simp only [hres] at hok; cases hok
        | abort e => simp only [hres] at hok; cases hok
      · unfold Browser.go_while at hok
        cases hres : goWhileAux b.raster 1 pred (stdFuel b.raster.max) b.pos with
        | ok q =>
          simp only [hres] at hok
          cases hok
          have h := goWhileAux_ok b.raster 1 pred hc (stdFuel b.raster.max) b.pos hb q hres
          simpa [offDir] using h
        | err e => simp only [hres] at hok; cases hok
        | abort e => simp only [hres] at hok; cases hok
    · intro hall
      rcases hdir with rfl | rfl
      · have herr := goWhileAux_err b.raster (-1) pred hc (Or.inr rfl)
          (stdFuel b.raster.max) b.pos hb ?_ ?_
        · refine ⟨"could not browse past bounds", ?_⟩
          unfold Browser.go_while
          simp only [herr]
        · rw [if_neg (by decide)]
          unfold stdFuel
          omega
        · simpa [offDir] using hall
      · have herr := goWhileAux_err b.raster 1 pred hc (Or.inl rfl)
          (stdFuel b.raster.max) b.pos hb ?_ ?_
        · refine ⟨"could not browse past bounds", ?_⟩
          unfold Browser.go_while
          simp only [herr]
        · rw [if_pos rfl]
          unfold stdFuel
          omega
        · simpa [offDir] using hall
  · intro dir
    constructor
    · intro b2 hok
      unfold Browser.go_no_wrap at hok
      simp only [] at hok
      split at hok
      · rename_i hin
        cases hok
        exact ⟨rfl, hin⟩
      · cases hok
    · intro hnb
      unfold Browser.go_no_wrap
      simp only []
      rw [if_neg hnb]

/-- Witness for C9: a 2 x 3 raster whose middle column is text, browser at the
origin. -/
theorem claim_C9_browser_motion_witness :
    ((0 : Int) < 2 ∧ (0 : Int) < 3 ∧
      is_in_bounds ((0 : Int), (0 : Int))
        (Raster.mk (fun p => if p.2 = 1 then PixelState.Text 0 0 else PixelState.Empty)
          (2, 3)).max = true) ∧
    ((∀ dir : Direction, (dir = Direction.Left ∨ dir = Direction.Right) →
      (∀ b2, Browser.go_while
          (Browser.mk
            (Raster.mk (fun p => if p.2 = 1 then PixelState.Text 0 0 else PixelState.Empty)
              (2, 3)) (0, 0)) dir PixelState.is_text = Res.ok b2 →
        is_in_bounds b2.pos (2, 3) = true ∧
        PixelState.is_text
          ((Raster.mk (fun p => if p.2 = 1 then PixelState.Text 0 0 else PixelState.Empty)
            (2, 3)).cell b2.pos) = false ∧
        ∃ m, 1 ≤ m ∧ stepN (2, 3) (offDir dir) m (0, 0) = some b2.pos ∧
          ∀ j q, 1 ≤ j → j < m → stepN (2, 3) (offDir dir) j (0, 0) = some q →
            PixelState.is_text
              ((Raster.mk (fun p => if p.2 = 1 then PixelState.Text 0 0 else PixelState.Empty)
                (2, 3)).cell q) = true) ∧
      ((∀ j q, 1 ≤ j → stepN (2, 3) (offDir dir) j (0, 0) = some q →
          PixelState.is_text
            ((Raster.mk (fun p => if p.2 = 1 then PixelState.Text 0 0 else PixelState.Empty)
              (2, 3)).cell q) = true) →
        ∃ e, Browser.go_while
          (Browser.mk
            (Raster.mk (fun p => if p.2 = 1 then PixelState.Text 0 0 else PixelState.Empty)
              (2, 3)) (0, 0)) dir PixelState.is_text = Res.err e)) ∧
    (∀ dir : Direction,
      (∀ b2, Browser.go_no_wrap
          (Browser.mk
            (Raster.mk (fun p => if p.2 = 1 then PixelState.Text 0 0 else PixelState.Empty)
              (2, 3)) (0, 0)) dir = Res.ok b2 →
        b2.pos = add_points (0, 0) dir.delta ∧
          is_in_bounds b2.pos (2, 3) = true) ∧
      (¬ (is_in_bounds (add_points (0, 0) dir.delta) (2, 3) = true) →
        Browser.go_no_wrap
          (Browser.mk
            (Raster.mk (fun p => if p.2 = 1 then PixelState.Text 0 0 else PixelState.Empty)
              (2, 3)) (0, 0)) dir = Res.err "hit bounds"))) :=
  ⟨⟨by decide, by decide, by decide⟩,
    claim_C9_browser_motion
      (Browser.mk
        (Raster.mk (fun p => if p.2 = 1 then PixelState.Text 0 0 else PixelState.Empty)
          (2, 3)) (0, 0)) PixelState.is_text (by decide) (by decide) (by decide)⟩

end Termflowy
